import Mathlib

/-!
Verification of the download orchestration subsystem of the drop-app desktop
client.  Each Rust function relevant to the stated properties is shallowly
embedded as an executable Lean definition; theorems about those definitions
settle the properties.

Machine integers (`usize`, `u64`) are modelled as `Nat`: the quantities
involved (byte counts, indices) never approach `2^64` in the program's domain
and the Rust code would panic on overflow in debug builds rather than wrap.
Rust `HashMap`s that are only read through `get(..).unwrap_or(&false)` are
modelled as total functions with default `false`; `HashMap`s that are
iterated are modelled as association lists (one admissible iteration order).
Code paths that panic are modelled with `Option`.
-/

namespace DropApp

/-- Association-list lookup, modelling `HashMap::get` on a map represented as
a list of key/value pairs. -/
def alookup {κ β : Type} [DecidableEq κ] : List (κ × β) → κ → Option β
  | [], _ => none
  | p :: rest, k => if p.1 = k then some p.2 else alookup rest k

/-- Association-list insert-or-replace, modelling `HashMap::insert` (and the
`entry(..).or_insert_with(..)` + mutate pattern). -/
def aset {κ β : Type} [DecidableEq κ] : List (κ × β) → κ → β → List (κ × β)
  | [], k, v => [(k, v)]
  | p :: rest, k, v => if p.1 = k then (k, v) :: rest else p :: aset rest k v

/-- Association-list removal, modelling `HashMap::remove`. -/
def aremove {κ β : Type} [DecidableEq κ] : List (κ × β) → κ → List (κ × β)
  | [], _ => []
  | p :: rest, k => if p.1 = k then rest else p :: aremove rest k

/-! ## Shared data model

The `database` crate's model types (`database/src/models/data.rs`) are not
part of the sources provided; the shapes below follow the specification's
data-model section and the field accesses made by the code that is present. -/

/-- Modelled from the spec: `DownloadType` is the `kind` discriminant of a
`DownloadableKey`, an enum with `Game` and further variants; the sources only
ever construct `DownloadType::Game`.  One further variant (`tool`) is kept so
that keys differing only in kind exist in the model. -/
inductive DownloadType : Type
  | game : DownloadType
  | tool : DownloadType
deriving DecidableEq, Repr

/-- Modelled from the spec: `DownloadableKey` / `DownloadableMetadata` is
`{ id, version: string or absent, kind }` with equality total over all three
fields. -/
structure DownloadableMetadata : Type where
  id : String
  version : Option String
  download_type : DownloadType
deriving DecidableEq, Repr

/-- Modelled from the spec: the durable per-game status
`Remote | PartiallyInstalled{version, dir} | Installed{version, dir} |
SetupRequired{version, dir}` (the defining Rust file is not among the
provided sources). -/
inductive GameDownloadStatus : Type
  | remote : GameDownloadStatus
  | partiallyInstalled (version_name install_dir : String) : GameDownloadStatus
  | installed (version_name install_dir : String) : GameDownloadStatus
  | setupRequired (version_name install_dir : String) : GameDownloadStatus
deriving DecidableEq, Repr

/-- Modelled from the spec: the transient per-game status
`Queued | Downloading{version} | Validating{version} | Uninstalling |
Running` (the defining Rust file is not among the provided sources). -/
inductive ApplicationTransientStatus : Type
  | queued (version_name : String) : ApplicationTransientStatus
  | downloading (version_name : String) : ApplicationTransientStatus
  | validating (version_name : String) : ApplicationTransientStatus
  | uninstalling : ApplicationTransientStatus
  | running : ApplicationTransientStatus
deriving DecidableEq, Repr

/-- The slice of the persistent database read by `GameStatusManager::fetch_state`:
`applications.transient_statuses` keyed by full metadata and
`applications.game_statuses` keyed by game id. -/
structure DatabaseApplications : Type where
  transient_statuses : List (DownloadableMetadata × ApplicationTransientStatus)
  game_statuses : List (String × GameDownloadStatus)

/-- The database root object (only the `applications` field is relevant
here). -/
structure Database : Type where
  applications : DatabaseApplications

/-- Embedding of `GameStatusManager::fetch_state` (games/src/state.rs):
look up the transient status under the version-less Game key, the durable
status under the game id, and return `(None, transient)` if a transient
status exists, else `(durable, None)` if a durable one exists, else
`(None, None)`. -/
def fetch_state (game_id : String) (db : Database) :
    Option GameDownloadStatus × Option ApplicationTransientStatus :=
  let online_state := alookup db.applications.transient_statuses
    ⟨game_id, none, DownloadType.game⟩
  let offline_state := alookup db.applications.game_statuses game_id
  if online_state.isSome then (none, online_state)
  else if offline_state.isSome then (offline_state, none)
  else (none, none)

/-! ## Rolling progress window

Embedding of `RollingProgressWindow<S>`
(src/download_manager/util/rolling_progress_updates.rs).  The fixed-size
array of `AtomicUsize` is a `List Nat` of length `S`; `current` is the
monotone write index.  `get_average` divides by the number of valid entries;
on an empty window the Rust code divides by zero and panics, which the
embedding models as `none`. -/
structure RollingProgressWindow : Type where
  window : List Nat
  current : Nat
deriving Repr

namespace RollingProgressWindow

/-- Embedding of `RollingProgressWindow::<S>::new()`: `S` zeroed slots and
`current = 0`. -/
def new (S : Nat) : RollingProgressWindow :=
  { window := List.replicate S 0, current := 0 }

/-- Embedding of `update`: fetch-and-increment `current`, store the sample at
`index % S` (`S` being the array length). -/
def update (w : RollingProgressWindow) (v : Nat) : RollingProgressWindow :=
  { window := w.window.set (w.current % w.window.length) v,
    current := w.current + 1 }

/-- Embedding of `get_average`: collect the entries whose index is below
`current`, then divide their sum by their count.  The Rust division panics
when the count is zero; that case is `none`. -/
def get_average (w : RollingProgressWindow) : Option Nat :=
  let valid := ((w.window.enum).filter (fun p => p.1 < w.current)).map Prod.snd
  let amount := valid.length
  if amount = 0 then none else some (valid.sum / amount)

/-- Embedding of `reset`: zero every slot and the index. -/
def reset (w : RollingProgressWindow) : RollingProgressWindow :=
  { window := List.replicate w.window.length 0, current := 0 }

/-- State after pushing the samples `vs`, oldest first, into a fresh window
of capacity `S`. -/
def applyUpdates (S : Nat) (vs : List Nat) : RollingProgressWindow :=
  vs.foldl update (new S)

end RollingProgressWindow

/-! ## Download agent: errors, retry loop, and the `run()` bookkeeping

Embeddings from games/src/downloads/download_agent.rs and
download_manager/src/error.rs. -/

/-- Embedding of `ApplicationDownloadError` (download_manager/src/error.rs).
Payloads irrelevant to control flow are dropped. -/
inductive ApplicationDownloadError : Type
  | notInitialized : ApplicationDownloadError
  | communication : ApplicationDownloadError
  | diskFull (required available : Nat) : ApplicationDownloadError
  | checksum : ApplicationDownloadError
  | lockErr : ApplicationDownloadError
  | ioError : ApplicationDownloadError
  | downloadError : ApplicationDownloadError
deriving DecidableEq, Repr

/-- Embedding of the `matches!` retry classification inside the worker
closure of `GameDownloadAgent::run` (download_agent.rs:484-490): an error is
retried exactly when it is `Communication`, `Checksum`, `Lock` or
`IoError`. -/
def retryable : ApplicationDownloadError → Bool
  | ApplicationDownloadError.communication => true
  | ApplicationDownloadError.checksum => true
  | ApplicationDownloadError.lockErr => true
  | ApplicationDownloadError.ioError => true
  | _ => false

/-- Embedding of `RETRY_COUNT` (download_agent.rs:42). -/
def RETRY_COUNT : Nat := 3

/-- Result of one call to `download_game_bucket`: `Ok(true)`, `Ok(false)`
(cancelled via the control flag, non-terminal) or `Err(e)`. -/
inductive AttemptResult : Type
  | okTrue : AttemptResult
  | okFalse : AttemptResult
  | err (e : ApplicationDownloadError) : AttemptResult
deriving DecidableEq, Repr

/-- Outcome of one bucket worker: the checksums pushed into the shared
completed collector, the `Error` signal posted to the queue manager (if
any), and how many attempts were actually made. -/
structure WorkerOut : Type where
  completed : List String
  posted : Option ApplicationDownloadError
  attemptsMade : Nat
deriving DecidableEq, Repr

/-- Embedding of the `for i in 0..RETRY_COUNT` retry loop inside the worker
closure of `GameDownloadAgent::run` (download_agent.rs:464-500).  `drops` is
the checksum list of the (already filtered) bucket; `attempts i` is the
result `download_game_bucket` would return on attempt `i`.  `fuel` counts
the remaining loop iterations; falling off the end of the loop (impossible,
since the last iteration always returns) yields the closure's unit return. -/
def workerLoopAux (drops : List String) (attempts : Nat → AttemptResult) :
    Nat → Nat → WorkerOut
  | _, 0 => { completed := [], posted := none, attemptsMade := RETRY_COUNT }
  | i, fuel + 1 =>
    match attempts i with
    | AttemptResult.okTrue => { completed := drops, posted := none, attemptsMade := i + 1 }
    | AttemptResult.okFalse => { completed := [], posted := none, attemptsMade := i + 1 }
    | AttemptResult.err e =>
      if i = RETRY_COUNT - 1 ∨ retryable e = false then
        { completed := [], posted := some e, attemptsMade := i + 1 }
      else
        workerLoopAux drops attempts (i + 1) fuel

/-- The whole retry loop, started at attempt `0` with `RETRY_COUNT`
iterations available. -/
def workerLoop (drops : List String) (attempts : Nat → AttemptResult) : WorkerOut :=
  workerLoopAux drops attempts 0 RETRY_COUNT

/-! ### The tail of `run()`: merge, snapshot, persist, return value -/

/-- Modelled from the spec: the `DropData` store
(games/src/downloads/drop_data.rs is not among the provided sources).
Per the spec, `set_contexts(list)` replaces the in-memory map and `write()`
flushes it to the file under `base_path`; `mem` is the in-memory map and
`disk` the last flushed snapshot. -/
structure DropData : Type where
  mem : List (String × Bool)
  disk : List (String × Bool)
deriving DecidableEq, Repr

/-- Modelled from the spec: `DropData::set_contexts` replaces the map. -/
def DropData.set_contexts (d : DropData) (cs : List (String × Bool)) : DropData :=
  { d with mem := cs }

/-- Modelled from the spec: `DropData::write` flushes the map to disk. -/
def DropData.write (d : DropData) : DropData :=
  { d with disk := d.mem }

/-- A download bucket as far as `run()`'s bookkeeping is concerned: the
checksums of its drops together with the drop lengths (`DownloadDrop` proper
is embedded with the planner below). -/
structure RunBucket : Type where
  checksums : List String
deriving DecidableEq, Repr

/-- Embedding of the `todo_drops` filter inside `run()`
(download_agent.rs:436-446): keep exactly the drops whose checksum does not
map to `true` in `context_map` (`get(..).unwrap_or(&false)`). -/
def todoChecksums (contextMap : String → Bool) (b : RunBucket) : List String :=
  b.checksums.filter (fun c => !(contextMap c))

/-- The shared completed-checksums collector after the pool quiesces: bucket
`i`'s worker pushes all of its filtered drops' checksums exactly when its
retry loop ended in `Ok(true)` (`outcome i = true`); a skipped bucket (empty
todo list) pushes nothing. -/
def completedCollector (buckets : List RunBucket) (contextMap : String → Bool)
    (outcome : Nat → Bool) : List String :=
  (buckets.enum.flatMap fun p =>
    if outcome p.1 then todoChecksums contextMap p.2 else [])

/-- Embedding of the merge step of `run()` (download_agent.rs:506-513): every
checksum in the completed collector is inserted into `context_map` as
`true`.  The map is total with default `false`, so insertion is a pointwise
override. -/
def mergeCompleted (contextMap : String → Bool) (completed : List String) :
    String → Bool :=
  fun h => if h ∈ completed then true else contextMap h

/-- Embedding of the snapshot step of `run()` (download_agent.rs:515-523):
pair every drop checksum of every bucket with its value in the merged
`context_map` (default `false`). -/
def snapshotContexts (buckets : List RunBucket) (contextMap : String → Bool) :
    List (String × Bool) :=
  (buckets.flatMap fun b => b.checksums).map (fun c => (c, contextMap c))

/-- State after the tail of `run()`: the persisted drop data and the `Ok`
return value. -/
structure RunOut : Type where
  dropdata : DropData
  result : Bool
deriving DecidableEq, Repr

/-- Embedding of `run()` after the pool quiesces (download_agent.rs:504-541):
merge the completed collector into `context_map`, snapshot it over all
bucket drop checksums into `drop_data` via `set_contexts` followed by
`write()`, and return `Ok(false)` iff some snapshotted checksum maps to
`false`. -/
def runTail (buckets : List RunBucket) (contextMap : String → Bool)
    (outcome : Nat → Bool) (d : DropData) : RunOut :=
  let completed := completedCollector buckets contextMap outcome
  let merged := mergeCompleted contextMap completed
  let contexts := snapshotContexts buckets merged
  let d := (d.set_contexts contexts).write
  { dropdata := d, result := contexts.all (fun x => x.2) }

/-! ## Bucket planner

Embedding of `GameDownloadAgent::generate_buckets`
(download_agent.rs:249-367) and of the disk-space pre-flight in
`GameDownloadAgent::new` (download_agent.rs:75-131).  The manifest
(`DropManifest`, a `HashMap<String, DropFileEntry>`) is modelled as an
association list in one admissible iteration order; filesystem effects
(directory creation, `fallocate`) are not modelled. -/

/-- One manifest entry: the chunk lengths and checksums of one file, its
permissions and the version it belongs to (fields as accessed by
download_agent.rs). -/
structure ChunkEntry : Type where
  lengths : List Nat
  checksums : List String
  permissions : Nat
  version_name : String
deriving DecidableEq, Repr

/-- Embedding of `DownloadDrop` as built in `generate_buckets`
(download_agent.rs:284-292); `path` is `base_path.join(raw_path)`. -/
structure DownloadDrop : Type where
  filename : String
  start : Nat
  length : Nat
  checksum : String
  permissions : Nat
  path : String
  index : Nat
deriving DecidableEq, Repr

/-- Embedding of `DownloadBucket`. -/
structure DownloadBucket : Type where
  game_id : String
  version : String
  drops : List DownloadDrop
deriving DecidableEq, Repr

/-- Embedding of `TARGET_BUCKET_SIZE = 63 * 1000 * 1000`
(download_agent.rs:44). -/
def TARGET_BUCKET_SIZE : Nat := 63 * 1000 * 1000

/-- Embedding of `MAX_FILES_PER_BUCKET = (1024 / 4) - 1`
(download_agent.rs:45). -/
def MAX_FILES_PER_BUCKET : Nat := (1024 / 4) - 1

/-- The planner's mutable state during `generate_buckets`: the finished
bucket list plus the per-version accumulator bucket and its byte size
(`current_buckets` / `current_bucket_sizes`). -/
structure PlannerState : Type where
  buckets : List DownloadBucket
  currentBuckets : List (String × DownloadBucket)
  currentBucketSizes : List (String × Nat)
deriving Repr

/-- Embedding of the per-chunk body of `generate_buckets`
(download_agent.rs:295-335): a chunk of length `≥ TARGET_BUCKET_SIZE` gets a
singleton bucket; otherwise it goes into the per-version accumulator, which
is flushed first when adding would reach `TARGET_BUCKET_SIZE` or the
accumulator already holds `MAX_FILES_PER_BUCKET` drops (and is
non-empty). -/
def processDrop (gameId versionName : String) (st : PlannerState) (d : DownloadDrop) :
    PlannerState :=
  if TARGET_BUCKET_SIZE ≤ d.length then
    { st with buckets := st.buckets ++
        [{ game_id := gameId, version := versionName, drops := [d] }] }
  else
    let curSize := (alookup st.currentBucketSizes versionName).getD 0
    let curBucket := (alookup st.currentBuckets versionName).getD
      { game_id := gameId, version := versionName, drops := [] }
    if (TARGET_BUCKET_SIZE ≤ curSize + d.length
          ∨ MAX_FILES_PER_BUCKET ≤ curBucket.drops.length)
        ∧ curBucket.drops.isEmpty = false then
      { buckets := st.buckets ++ [curBucket],
        currentBuckets := aset st.currentBuckets versionName
          { game_id := gameId, version := versionName, drops := [d] },
        currentBucketSizes := aset st.currentBucketSizes versionName d.length }
    else
      { st with
        currentBuckets := aset st.currentBuckets versionName
          { curBucket with drops := curBucket.drops ++ [d] },
        currentBucketSizes := aset st.currentBucketSizes versionName
          (curSize + d.length) }

/-- Embedding of the inner `for (index, length) in chunk.lengths.iter().enumerate()`
loop of `generate_buckets` (download_agent.rs:283-336), tracking
`file_running_offset`. -/
def processEntryAux (gameId basePath rawPath : String) (entry : ChunkEntry) :
    List (Nat × Nat) → Nat → PlannerState → PlannerState
  | [], _, st => st
  | (index, length) :: rest, offset, st =>
    let d : DownloadDrop :=
      { filename := rawPath, start := offset, length := length,
        checksum := entry.checksums.getD index (""),
        permissions := entry.permissions,
        path := basePath ++ "/" ++ rawPath, index := index }
    processEntryAux gameId basePath rawPath entry rest (offset + length)
      (processDrop gameId entry.version_name st d)

/-- Processing of one manifest file: iterate its chunk lengths from running
offset `0`. -/
def processEntry (gameId basePath : String) (st : PlannerState)
    (rawPath : String) (entry : ChunkEntry) : PlannerState :=
  processEntryAux gameId basePath rawPath entry entry.lengths.enum 0 st

/-- Embedding of `GameDownloadAgent::generate_buckets`
(download_agent.rs:249-367): fold every manifest file through the planner,
then flush the non-empty per-version accumulators. -/
def generate_buckets (gameId basePath : String)
    (manifest : List (String × ChunkEntry)) : List DownloadBucket :=
  let st := manifest.foldl (fun st p => processEntry gameId basePath st p.1 p.2)
    { buckets := [], currentBuckets := [], currentBucketSizes := [] }
  st.buckets ++ (st.currentBuckets.map Prod.snd).filter (fun b => b.drops.isEmpty = false)

/-! ### Disk-space pre-flight of `GameDownloadAgent::new` -/

/-- Embedding of the `required_space` computation in `GameDownloadAgent::new`
(download_agent.rs:107-119): over every manifest entry, sum the lengths of
the chunks whose stored completion entry is `true`
(`filter(|(i, _)| *context_lock.get(&e.checksums[*i]).unwrap_or(&false))`). -/
def required_space (manifest : List (String × ChunkEntry))
    (contexts : String → Bool) : Nat :=
  (manifest.map (fun e =>
    (((e.2.lengths.enum).filter
        (fun p => contexts (e.2.checksums.getD p.1 ("")))).map
      (fun p => p.2)).sum)).sum

/-- The required-space computation as the specification words it: the total
length of the chunks whose completion entry is NOT `true` (the bytes still
to be downloaded).  Kept separate from `required_space` (which embeds the
source) for comparison. -/
def required_space_spec (manifest : List (String × ChunkEntry))
    (contexts : String → Bool) : Nat :=
  (manifest.map (fun e =>
    (((e.2.lengths.enum).filter
        (fun p => !(contexts (e.2.checksums.getD p.1 (""))))).map
      (fun p => p.2)).sum)).sum

/-- Embedding of the disk-space check in `GameDownloadAgent::new`
(download_agent.rs:121-130): fail with `DiskFull(required, available)` when
`required_space > available_space`. -/
def new_disk_check (manifest : List (String × ChunkEntry))
    (contexts : String → Bool) (available : Nat) :
    Except ApplicationDownloadError Unit :=
  let required := required_space manifest contexts
  if available < required then
    Except.error (ApplicationDownloadError.diskFull required available)
  else Except.ok ()

/-! ## Queue manager

Embedding of `DownloadManagerBuilder`
(download_manager/src/download_manager_builder.rs).  An agent is represented
by its `DownloadStatus`; the queue (`util/queue.rs`, an ordered container)
is a list; the registry is an association list.  Direct UI emissions and
signals posted back to the channel are recorded as effects. -/

/-- Modelled from the spec and the uses in the sources: the per-agent
`DownloadStatus` (`download_manager_frontend.rs` is not among the provided
sources).  Variants constructed in the sources: `Queued`, `Downloading`,
`Validating`, `Error`. -/
inductive DownloadStatus : Type
  | queued : DownloadStatus
  | downloading : DownloadStatus
  | validating : DownloadStatus
  | error : DownloadStatus
deriving DecidableEq, Repr

/-- Modelled from the spec and the uses in the sources: the manager-level
status (`Empty`, `Downloading`, `Paused`, `Error`). -/
inductive DownloadManagerStatus : Type
  | empty : DownloadManagerStatus
  | downloading : DownloadManagerStatus
  | paused : DownloadManagerStatus
  | error : DownloadManagerStatus
deriving DecidableEq, Repr

/-- Embedding of `DownloadThreadControlFlag` (`Go` / `Stop`; the `Wait`
state named by the spec is never constructed in the provided sources). -/
inductive DownloadThreadControlFlag : Type
  | go : DownloadThreadControlFlag
  | stop : DownloadThreadControlFlag
deriving DecidableEq, Repr

/-- The manager state owned by `DownloadManagerBuilder`: the ordered queue of
keys, the agent registry, the shared control flag of the active run (if
any), the worker thread handle (modelled by the key its worker drives), and
the manager status. -/
structure ManagerState : Type where
  download_queue : List DownloadableMetadata
  registry : List (DownloadableMetadata × DownloadStatus)
  active_control_flag : Option DownloadThreadControlFlag
  current_download_thread : Option DownloadableMetadata
  manager_status : DownloadManagerStatus
deriving DecidableEq, Repr

/-- Observable side effects of a signal handler: direct UI emissions,
signals posted back onto the manager's own channel, agent callbacks, and
worker spawns. -/
inductive ManagerEffect : Type
  | emitQueueUpdate : ManagerEffect
  | emitStatsUpdate (kbs time : Nat) : ManagerEffect
  | postUpdateUIQueue : ManagerEffect
  | postGo : ManagerEffect
  | agentOnQueued (meta : DownloadableMetadata) : ManagerEffect
  | agentOnCancelled (meta : DownloadableMetadata) : ManagerEffect
  | agentOnError (meta : DownloadableMetadata) : ManagerEffect
  | spawnWorker (meta : DownloadableMetadata) : ManagerEffect
deriving DecidableEq, Repr

/-- Embedding of `remove_and_cleanup_front_download`
(download_manager_builder.rs:112-133): pop the queue front, remove the agent
from the registry, drop the control-flag reference and join/clear the worker
thread handle. -/
def remove_and_cleanup_front (st : ManagerState) (meta : DownloadableMetadata) :
    ManagerState :=
  { st with
    download_queue := st.download_queue.tail,
    registry := aremove st.registry meta,
    active_control_flag := none,
    current_download_thread := none }

/-- Embedding of `stop_and_wait_current_download`
(download_manager_builder.rs:135-147): set manager status `Paused`, flip the
active control flag (if any) to `Stop`, and join the worker thread. -/
def stop_and_wait (st : ManagerState) : ManagerState :=
  { st with
    manager_status := DownloadManagerStatus.paused,
    active_control_flag :=
      st.active_control_flag.map (fun _ => DownloadThreadControlFlag.stop),
    current_download_thread := none }

/-- Embedding of `manage_queue_signal` (download_manager_builder.rs:188-204):
drop the signal if the key is already queued, else `on_queued` the agent
(which sets its status to `Queued`, download_agent.rs:658-669), append the
key, insert the agent, and post `UpdateUIQueue`. -/
def manage_queue_signal (st : ManagerState) (meta : DownloadableMetadata) :
    ManagerState × List ManagerEffect :=
  if st.download_queue.contains meta then (st, [])
  else
    ({ st with
        download_queue := st.download_queue ++ [meta],
        registry := aset st.registry meta DownloadStatus.queued },
     [ManagerEffect.agentOnQueued meta, ManagerEffect.postUpdateUIQueue])

/-- Embedding of `manage_go_signal` (download_manager_builder.rs:206-308):
return unless the registry is non-empty, the queue has a front whose agent
status is `Queued`; otherwise mark all other non-queued agents `Queued`,
capture the front agent's control flag, spawn the worker thread (whose first
action sets the front agent's status to `Downloading`,
download_agent.rs:633), set the manager status `Downloading` and flip the
flag to `Go`. -/
def manage_go_signal (st : ManagerState) : ManagerState × List ManagerEffect :=
  if st.registry.isEmpty then (st, [])
  else
    match st.download_queue.head? with
    | none => (st, [])
    | some front =>
      match alookup st.registry front with
      | none => (st, [])
      | some status =>
        if status ≠ DownloadStatus.queued then (st, [])
        else
          let requeued := st.registry.map (fun p =>
            if p.1 ≠ front ∧ p.2 ≠ DownloadStatus.queued
            then (p.1, DownloadStatus.queued) else p)
          ({ st with
              registry := aset requeued front DownloadStatus.downloading,
              active_control_flag := some DownloadThreadControlFlag.go,
              current_download_thread := some front,
              manager_status := DownloadManagerStatus.downloading },
           [ManagerEffect.spawnWorker front])

/-- Embedding of `manage_stop_signal` (download_manager_builder.rs:309-316):
if a control flag is active, set the manager status `Paused` and flip the
flag to `Stop`; the queue is not popped. -/
def manage_stop_signal (st : ManagerState) : ManagerState × List ManagerEffect :=
  if st.active_control_flag.isSome then
    ({ st with
        manager_status := DownloadManagerStatus.paused,
        active_control_flag := some DownloadThreadControlFlag.stop }, [])
  else (st, [])

/-- Embedding of `manage_completed_signal`
(download_manager_builder.rs:317-327): if the completed key is the queue
front, pop it and drop its agent; in every case emit a queue UI update and
post `Go`. -/
def manage_completed_signal (st : ManagerState) (meta : DownloadableMetadata) :
    ManagerState × List ManagerEffect :=
  let st2 :=
    if st.download_queue.head? = some meta then remove_and_cleanup_front st meta
    else st
  (st2, [ManagerEffect.emitQueueUpdate, ManagerEffect.postGo])

/-- Embedding of `manage_error_signal` (download_manager_builder.rs:328-340):
if the queue has a front with a registered agent, call its `on_error` (which
sets the agent status to `Error`, download_agent.rs:672), stop-and-wait, pop
and drop it; then emit a queue UI update and set the manager status
`Error`. -/
def manage_error_signal (st : ManagerState) : ManagerState × List ManagerEffect :=
  match st.download_queue.head? with
  | none => ({ st with manager_status := DownloadManagerStatus.error },
             [ManagerEffect.emitQueueUpdate])
  | some front =>
    match alookup st.registry front with
    | none => ({ st with manager_status := DownloadManagerStatus.error },
               [ManagerEffect.emitQueueUpdate])
    | some _ =>
      let st2 := { st with registry := aset st.registry front DownloadStatus.error }
      let st3 := remove_and_cleanup_front (stop_and_wait st2) front
      ({ st3 with manager_status := DownloadManagerStatus.error },
       [ManagerEffect.agentOnError front, ManagerEffect.emitQueueUpdate])

/-- Embedding of `manage_cancel_signal` (download_manager_builder.rs:341-375):
if the key is the running front, pause, `on_cancelled`, stop-and-wait, pop
and clean up; else if registered and found in the queue, `on_cancelled` and
remove from queue and registry.  In every case post `Go` and emit a queue UI
update. -/
def manage_cancel_signal (st : ManagerState) (meta : DownloadableMetadata) :
    ManagerState × List ManagerEffect :=
  if st.download_queue.head? = some meta ∧ (alookup st.registry meta).isSome then
    let st2 := stop_and_wait { st with
      manager_status := DownloadManagerStatus.paused }
    let st3 := { st2 with
      download_queue := st2.download_queue.tail,
      active_control_flag := none,
      current_download_thread := none,
      registry := aremove st2.registry meta }
    (st3, [ManagerEffect.agentOnCancelled meta, ManagerEffect.postGo,
           ManagerEffect.emitQueueUpdate])
  else if (alookup st.registry meta).isSome then
    match st.download_queue.findIdx? (fun x => x == meta) with
    | some index =>
      ({ st with
          download_queue := st.download_queue.eraseIdx index,
          registry := aremove st.registry meta },
       [ManagerEffect.agentOnCancelled meta, ManagerEffect.postGo,
        ManagerEffect.emitQueueUpdate])
    | none => (st, [ManagerEffect.postGo, ManagerEffect.emitQueueUpdate])
  else (st, [ManagerEffect.postGo, ManagerEffect.emitQueueUpdate])

/-- Embedding of `manage_finish` behaviour of the `Finish` signal
(download_manager_builder.rs:178-181): stop-and-wait the current worker and
terminate the loop. -/
def manage_finish_signal (st : ManagerState) : ManagerState × List ManagerEffect :=
  (stop_and_wait st, [])

/-- The signals consumed by `manage_queue`
(`DownloadManagerSignal`; payloads irrelevant to queue/registry bookkeeping
are dropped). -/
inductive DlSignal : Type
  | queueSig (meta : DownloadableMetadata) : DlSignal
  | go : DlSignal
  | stop : DlSignal
  | completed (meta : DownloadableMetadata) : DlSignal
  | cancel (meta : DownloadableMetadata) : DlSignal
  | errorSig : DlSignal
  | updateUIQueue : DlSignal
  | updateUIStats (kbs time : Nat) : DlSignal
  | finish : DlSignal
deriving DecidableEq, Repr

/-- One dispatch of `manage_queue` (download_manager_builder.rs:149-187):
state component only. -/
def step (st : ManagerState) : DlSignal → ManagerState
  | DlSignal.queueSig meta => (manage_queue_signal st meta).1
  | DlSignal.go => (manage_go_signal st).1
  | DlSignal.stop => (manage_stop_signal st).1
  | DlSignal.completed meta => (manage_completed_signal st meta).1
  | DlSignal.cancel meta => (manage_cancel_signal st meta).1
  | DlSignal.errorSig => (manage_error_signal st).1
  | DlSignal.updateUIQueue => st
  | DlSignal.updateUIStats _ _ => st
  | DlSignal.finish => (manage_finish_signal st).1

/-- The manager state `DownloadManagerBuilder::build` starts from
(download_manager_builder.rs:84-106): empty queue and registry, no flag, no
thread, status `Empty`. -/
def initialManagerState : ManagerState :=
  { download_queue := [],
    registry := [],
    active_control_flag := none,
    current_download_thread := none,
    manager_status := DownloadManagerStatus.empty }

/-- The manager state after processing a list of signals in arrival order. -/
def runSignals (sigs : List DlSignal) : ManagerState :=
  sigs.foldl step initialManagerState

/-! ### Planner correctness predicates -/

/-- The shape every emitted bucket must have: either a singleton holding one
chunk of at least `TARGET_BUCKET_SIZE` bytes, or a grouped bucket within the
size and count bounds all of whose drops are small. -/
def bucketOk (b : DownloadBucket) : Prop :=
  (∃ d, b.drops = [d] ∧ TARGET_BUCKET_SIZE ≤ d.length)
  ∨ ((b.drops.map (fun d => d.length)).sum ≤ TARGET_BUCKET_SIZE
      ∧ b.drops.length ≤ MAX_FILES_PER_BUCKET
      ∧ ∀ d ∈ b.drops, d.length < TARGET_BUCKET_SIZE)

/-- The drops of the pending accumulator bucket for version `v` (empty when
no accumulator exists yet). -/
def pendDrops (st : PlannerState) (v : String) : List DownloadDrop :=
  ((alookup st.currentBuckets v).map DownloadBucket.drops).getD []

/-- The recorded byte size of the pending accumulator for version `v`. -/
def pendSize (st : PlannerState) (v : String) : Nat :=
  (alookup st.currentBucketSizes v).getD 0

/-- The planner-state invariant: every finished bucket is well-shaped, and
every pending accumulator matches its recorded size, stays below
`TARGET_BUCKET_SIZE`, holds at most `MAX_FILES_PER_BUCKET` small drops, and
records size 0 when empty; accumulator keys are unique. -/
def plannerOk (st : PlannerState) : Prop :=
  (∀ b ∈ st.buckets, bucketOk b)
  ∧ ((st.currentBuckets.map Prod.fst).Nodup)
  ∧ ∀ v, ((pendDrops st v).map (fun d => d.length)).sum = pendSize st v
      ∧ pendSize st v < TARGET_BUCKET_SIZE
      ∧ (pendDrops st v).length ≤ MAX_FILES_PER_BUCKET
      ∧ (pendDrops st v = [] → pendSize st v = 0)
      ∧ ∀ d ∈ pendDrops st v, d.length < TARGET_BUCKET_SIZE

/-- All drops held anywhere in the planner state: in finished buckets or in
pending accumulators. -/
def stateDrops (st : PlannerState) : List DownloadDrop :=
  (st.buckets.flatMap DownloadBucket.drops)
  ++ (st.currentBuckets.flatMap (fun p => p.2.drops))

/-- A drop is well-formed w.r.t. a manifest when it is chunk `index` of its
file's entry: its start is the sum of the preceding chunk lengths, its
length, checksum and permissions come from the entry, and its path joins the
base path with its file name. -/
def goodDrop (basePath : String) (manifest : List (String × ChunkEntry))
    (x : DownloadDrop) : Prop :=
  ∃ entry, (x.filename, entry) ∈ manifest
    ∧ x.index < entry.lengths.length
    ∧ x.start = (entry.lengths.take x.index).sum
    ∧ x.length = entry.lengths.getD x.index 0
    ∧ x.checksum = entry.checksums.getD x.index ("")
    ∧ x.permissions = entry.permissions
    ∧ x.path = basePath ++ ("/") ++ x.filename

/-- The manager's own consistency invariant: the queue holds no duplicate
keys, the registry's key list holds no duplicates, and the queue's key set
equals the registry's key set (the joint invariant the signal handlers are
meant to maintain). -/
def managerInv (st : ManagerState) : Prop :=
  st.download_queue.Nodup
  ∧ (st.registry.map Prod.fst).Nodup
  ∧ ∀ k, k ∈ st.download_queue ↔ k ∈ st.registry.map Prod.fst

/-! ## Concrete instances used by witnesses and counterexamples -/

/-- A database holding a version-qualified transient entry and a durable
entry for game `g`. -/
def c10db : Database :=
  ⟨⟨[(⟨("g"), some ("1"), DownloadType.game⟩, ApplicationTransientStatus.downloading ("1"))],
    [(("g"), GameDownloadStatus.remote)]⟩⟩

/-- A one-file, one-chunk manifest whose single 100-byte chunk has no stored
completion entry. -/
def c2entry : ChunkEntry :=
  { lengths := [100], checksums := ["h1"], permissions := 438,
    version_name := ("v1") }

/-- The manifest wrapping `c2entry`. -/
def c2manifest : List (String × ChunkEntry) := [(("a.bin"), c2entry)]

/-- The key of the game used in the manager scenarios. -/
def metaA : DownloadableMetadata := ⟨("game-a"), some ("v1"), DownloadType.game⟩

/-- A second key, distinct from `metaA`. -/
def metaB : DownloadableMetadata := ⟨("game-b"), some ("v1"), DownloadType.game⟩

/-- The manager state after `metaA`'s run was paused mid-download: the front
agent's status is still `Downloading` (set at download_agent.rs:633 and
never reset on pause), the shared control flag is `Stop`, the worker thread
has exited. -/
def pausedState : ManagerState :=
  { download_queue := [metaA],
    registry := [(metaA, DownloadStatus.downloading)],
    active_control_flag := some DownloadThreadControlFlag.stop,
    current_download_thread := none,
    manager_status := DownloadManagerStatus.paused }

/-- A manager state with `metaA` actively downloading at the queue front. -/
def c9state : ManagerState :=
  { download_queue := [metaA],
    registry := [(metaA, DownloadStatus.downloading)],
    active_control_flag := some DownloadThreadControlFlag.go,
    current_download_thread := some metaA,
    manager_status := DownloadManagerStatus.downloading }

/-- A single bucket over one checksum, as `run()` bookkeeping sees it. -/
def c1bucket : RunBucket := ⟨["h1"]⟩

/-- The network-flap scenario: two `Communication` failures, then success on
the third attempt. -/
def c7attempts : Nat → AttemptResult := fun i =>
  if i < 2 then AttemptResult.err ApplicationDownloadError.communication
  else AttemptResult.okTrue

/-- A manifest entry with one `TARGET_BUCKET_SIZE`-sized chunk followed by a
10-byte chunk. -/
def c5entry : ChunkEntry :=
  { lengths := [TARGET_BUCKET_SIZE, 10], checksums := ["h1", "h2"],
    permissions := 438, version_name := ("v1") }

/-- The manifest wrapping `c5entry` under file `a.bin`. -/
def c5manifest : List (String × ChunkEntry) := [(("a.bin"), c5entry)]

/-- The drop the planner builds for `c5entry`'s first (big) chunk. -/
def c5bigDrop : DownloadDrop :=
  { filename := ("a.bin"), start := 0, length := TARGET_BUCKET_SIZE,
    checksum := ("h1"), permissions := 438, path := ("base/a.bin"), index := 0 }

/-- The drop the planner builds for `c5entry`'s second (small) chunk. -/
def c5smallDrop : DownloadDrop :=
  { filename := ("a.bin"), start := TARGET_BUCKET_SIZE, length := 10,
    checksum := ("h2"), permissions := 438, path := ("base/a.bin"), index := 1 }

/-- The singleton bucket the planner emits for the big chunk. -/
def c5bigBucket : DownloadBucket :=
  { game_id := ("g"), version := ("v1"), drops := [c5bigDrop] }

/-- The grouped bucket the planner flushes holding the small chunk. -/
def c5smallBucket : DownloadBucket :=
  { game_id := ("g"), version := ("v1"), drops := [c5smallDrop] }

/-! # Theorems -/

/-! ### C10 — durable vs transient status resolution -/

/-- C10: for every database state and game id, `fetch_state` never returns
both a durable and a transient status: it returns `(None, Some t)` when a
transient status `t` is stored under the version-less `{id, version: None,
type: Game}` key (shadowing any durable status), otherwise `(Some d, None)`
when a durable status `d` exists, otherwise `(None, None)`; any transient
status it returns is stored under the version-less key, so version-qualified
transient entries are never returned. -/
theorem fetch_state_spec (db : Database) (id : String) :
    (¬(((fetch_state id db).1.isSome) ∧ ((fetch_state id db).2.isSome)))
    ∧ (∀ t, alookup db.applications.transient_statuses
          ⟨id, none, DownloadType.game⟩ = some t →
        fetch_state id db = (none, some t))
    ∧ (alookup db.applications.transient_statuses
          ⟨id, none, DownloadType.game⟩ = none →
        ∀ d, alookup db.applications.game_statuses id = some d →
        fetch_state id db = (some d, none))
    ∧ (alookup db.applications.transient_statuses
          ⟨id, none, DownloadType.game⟩ = none →
        alookup db.applications.game_statuses id = none →
        fetch_state id db = (none, none))
    ∧ (∀ t, (fetch_state id db).2 = some t →
        alookup db.applications.transient_statuses
          ⟨id, none, DownloadType.game⟩ = some t) := by
  rcases h1 : alookup db.applications.transient_statuses
      ⟨id, none, DownloadType.game⟩ with _ | t
  · rcases h2 : alookup db.applications.game_statuses id with _ | d
    · simp [fetch_state, h1, h2]
    · simp [fetch_state, h1, h2]
  · simp [fetch_state, h1]

/-- Witness for C10: in `c10db` the transient status is stored only under a
version-qualified key, so the durable status is returned. -/
theorem fetch_state_spec_witness :
    fetch_state ("g") c10db = (some GameDownloadStatus.remote, none) :=
  (fetch_state_spec c10db ("g")).2.2.1 (by decide) GameDownloadStatus.remote
    (by decide)

/-! ### C9 — Completed signal for a non-front key is a no-op frame -/

/-- C9: when the key of a `Completed(key)` signal is not the queue front,
`manage_completed_signal` leaves the queue, the registry, the active control
flag and the current worker handle unchanged, and only emits a queue UI
update and posts `Go`. -/
theorem manage_completed_offfront (st : ManagerState) (meta : DownloadableMetadata)
    (h : st.download_queue.head? ≠ some meta) :
    manage_completed_signal st meta =
      (st, [ManagerEffect.emitQueueUpdate, ManagerEffect.postGo]) := by
  simp [manage_completed_signal, h]

/-- Witness for C9: completing `metaB` while `metaA` is the running front
changes nothing. -/
theorem manage_completed_offfront_witness :
    manage_completed_signal c9state metaB =
      (c9state, [ManagerEffect.emitQueueUpdate, ManagerEffect.postGo]) :=
  manage_completed_offfront c9state metaB (by decide)

/-! ### C2 — the disk-space pre-flight sums the wrong chunk set -/

/-- C2 (failing input): with one 100-byte chunk that has never been
downloaded (its completion entry defaults to `false`) and only 50 bytes
available, the source's `required_space` sums the chunks whose completion
entry IS `true`, so it computes 0 and the pre-flight passes, while the
specified required-but-not-yet-complete byte count is 100 > 50, which should
fail with `DiskFull(100, 50)`. -/
theorem new_disk_check_inverted_filter :
    required_space c2manifest (fun _ => false) = 0
    ∧ required_space_spec c2manifest (fun _ => false) = 100
    ∧ new_disk_check c2manifest (fun _ => false) 50 = Except.ok () := by
  exact ⟨rfl, rfl, rfl⟩

/-! ### C4 — rolling window mean: counterexample on the empty window -/

/-- C4 (counterexample): with capacity 4 and no samples pushed,
`get_average` divides by zero — the Rust code panics; the embedding returns
`none` — so the mean is not defined on the empty window, contrary to the
claim. -/
theorem get_average_empty_not_defined :
    RollingProgressWindow.get_average (RollingProgressWindow.applyUpdates 4 []) =
      none := by
  exact rfl

/-! ### C3 — pause then resume does not restart the front download -/

/-- C3 (failing execution): after a pause, the front agent's status is still
`Downloading` (download_agent.rs:633; nothing resets it to `Queued`), so a
`Go` signal returns early, spawns no worker, and leaves the whole manager
state unchanged — the incomplete chunk `h1` stays `false` on disk; an
uninterrupted run over the same bucket (every bucket download succeeding)
ends with `h1 ↦ true` on disk and returns `Ok(true)`. -/
theorem resume_after_pause_stuck :
    manage_go_signal pausedState = (pausedState, [])
    ∧ (runTail [c1bucket] (fun _ => false) (fun _ => true)
        ⟨[], []⟩).dropdata.disk = [(("h1"), true)]
    ∧ (runTail [c1bucket] (fun _ => false) (fun _ => true)
        ⟨[], []⟩).result = true := by
  exact ⟨by decide, rfl, rfl⟩

/-! ### C1 — run() merges, snapshots, persists, and reports completion -/

/-- C1: after the pool quiesces, every hash in the completed collector maps
to `true` in the snapshot written to disk, and `run()` returns `Ok(true)`
exactly when every snapshotted checksum maps to `true` (`Ok(false)`
otherwise). -/
theorem runTail_spec (buckets : List RunBucket) (cm : String → Bool)
    (outcome : Nat → Bool) (d : DropData) :
    (∀ h, h ∈ completedCollector buckets cm outcome →
      ∀ p, p ∈ (runTail buckets cm outcome d).dropdata.disk →
        p.1 = h → p.2 = true)
    ∧ ((runTail buckets cm outcome d).result = true ↔
      ∀ p ∈ (runTail buckets cm outcome d).dropdata.disk, p.2 = true) := by
  constructor
  · intro h hmem p hp hph
    have hdisk : (runTail buckets cm outcome d).dropdata.disk =
        snapshotContexts buckets
          (mergeCompleted cm (completedCollector buckets cm outcome)) := rfl
    rw [hdisk] at hp
    rcases List.mem_map.mp hp with ⟨c, _, hcp⟩
    cases hcp
    have hch : c = h := hph
    subst hch
    simp [mergeCompleted, hmem]
  · have hres : (runTail buckets cm outcome d).result =
        (snapshotContexts buckets
          (mergeCompleted cm (completedCollector buckets cm outcome))).all
          (fun x => x.2) := rfl
    have hdisk : (runTail buckets cm outcome d).dropdata.disk =
        snapshotContexts buckets
          (mergeCompleted cm (completedCollector buckets cm outcome)) := rfl
    rw [hres, hdisk]
    exact List.all_eq_true

/-- Witness for C1: one bucket over checksum `h1`, nothing previously
complete, the bucket download succeeding: `h1` is in the completed
collector, maps to `true` on disk, and the run returns `Ok(true)`. -/
theorem runTail_spec_witness :
    (((("h1"), true) : String × Bool).2 = true)
    ∧ (runTail [c1bucket] (fun _ => false) (fun _ => true) ⟨[], []⟩).result
        = true :=
  ⟨(runTail_spec [c1bucket] (fun _ => false) (fun _ => true)
      ⟨[], []⟩).1 ("h1") (by decide) (("h1"), true) (by decide) rfl,
   ((runTail_spec [c1bucket] (fun _ => false) (fun _ => true)
      ⟨[], []⟩).2).mpr (by decide)⟩

/-! ### C7 — bounded retries, retry classification, error posting -/

/-- C7: a bucket worker makes at most `RETRY_COUNT = 3` attempts; an attempt
is followed by another only when it failed with a retryable error
(`Communication`, `Checksum`, `Lock`, `IoError`); an `Error(e)` signal is
posted exactly when the last attempt made failed — that is, on the third
retryable failure or on a non-retryable error; if some attempt made returns
`Ok`, nothing is posted, with `Ok(true)` recording the bucket's drop
checksums in the completed collector and `Ok(false)` recording nothing. -/
theorem workerLoop_spec (drops : List String) (attempts : Nat → AttemptResult) :
    ((workerLoop drops attempts).attemptsMade ≤ RETRY_COUNT)
    ∧ (∀ i, i + 1 < (workerLoop drops attempts).attemptsMade →
        ∃ e, attempts i = AttemptResult.err e ∧ retryable e = true)
    ∧ (∀ e, (workerLoop drops attempts).posted = some e →
        attempts ((workerLoop drops attempts).attemptsMade - 1) = AttemptResult.err e
        ∧ (retryable e = false ∨ (workerLoop drops attempts).attemptsMade = RETRY_COUNT))
    ∧ (∀ e, attempts ((workerLoop drops attempts).attemptsMade - 1) = AttemptResult.err e →
        (workerLoop drops attempts).posted = some e)
    ∧ (∀ i, i < (workerLoop drops attempts).attemptsMade →
        attempts i = AttemptResult.okTrue →
        (workerLoop drops attempts).completed = drops
        ∧ (workerLoop drops attempts).posted = none)
    ∧ (∀ i, i < (workerLoop drops attempts).attemptsMade →
        attempts i = AttemptResult.okFalse →
        (workerLoop drops attempts).completed = []
        ∧ (workerLoop drops attempts).posted = none) := by
  rcases h0 : attempts 0 with _ | _ | e0
  · -- attempt 0 returns Ok(true)
    have hval : workerLoop drops attempts = ⟨drops, none, 1⟩ := by
      simp [workerLoop, workerLoopAux, RETRY_COUNT, h0]
    rw [hval]
    refine ⟨?_, ?_, ?_, ?_, ?_, ?_⟩
    · simp [RETRY_COUNT]
    · intro i hi
      simp at hi
    · intro e he
      simp at he
    · intro e he
      simp at he
      rw [h0] at he
      exact AttemptResult.noConfusion he
    · intro i hi h
      exact ⟨rfl, rfl⟩
    · intro i hi h
      simp at hi
      subst hi
      rw [h0] at h
      exact AttemptResult.noConfusion h
  · -- attempt 0 returns Ok(false)
    have hval : workerLoop drops attempts = ⟨[], none, 1⟩ := by
      simp [workerLoop, workerLoopAux, RETRY_COUNT, h0]
    rw [hval]
    refine ⟨?_, ?_, ?_, ?_, ?_, ?_⟩
    · simp [RETRY_COUNT]
    · intro i hi
      simp at hi
    · intro e he
      simp at he
    · intro e he
      simp at he
      rw [h0] at he
      exact AttemptResult.noConfusion he
    · intro i hi h
      simp at hi
      subst hi
      rw [h0] at h
      exact AttemptResult.noConfusion h
    · intro i hi h
      exact ⟨rfl, rfl⟩
  · cases hr0 : retryable e0
    · -- attempt 0 fails non-retryably
      have hval : workerLoop drops attempts = ⟨[], some e0, 1⟩ := by
        simp [workerLoop, workerLoopAux, RETRY_COUNT, h0, hr0]
      rw [hval]
      refine ⟨?_, ?_, ?_, ?_, ?_, ?_⟩
      · simp [RETRY_COUNT]
      · intro i hi
        simp at hi
      · intro e he
        simp at he
        subst he
        exact ⟨by simpa using h0, Or.inl hr0⟩
      · intro e he
        simp at he
        rw [h0] at he
        injection he with h
        subst h
        rfl
      · intro i hi h
        simp at hi
        subst hi
        rw [h0] at h
        exact AttemptResult.noConfusion h
      · intro i hi h
        simp at hi
        subst hi
        rw [h0] at h
        exact AttemptResult.noConfusion h
    · -- attempt 0 fails retryably: attempt 1 happens
      rcases h1 : attempts 1 with _ | _ | e1
      · have hval : workerLoop drops attempts = ⟨drops, none, 2⟩ := by
          simp [workerLoop, workerLoopAux, RETRY_COUNT, h0, hr0, h1]
        rw [hval]
        refine ⟨?_, ?_, ?_, ?_, ?_, ?_⟩
        · simp [RETRY_COUNT]
        · intro i hi
          have hz : i = 0 := by simp at hi; omega
          subst hz
          exact ⟨e0, h0, hr0⟩
        · intro e he
          simp at he
        · intro e he
          simp at he
          rw [h1] at he
          exact AttemptResult.noConfusion he
        · intro i hi h
          exact ⟨rfl, rfl⟩
        · intro i hi h
          simp at hi
          interval_cases i
          · rw [h0] at h
            exact AttemptResult.noConfusion h
          · rw [h1] at h
            exact AttemptResult.noConfusion h
      · have hval : workerLoop drops attempts = ⟨[], none, 2⟩ := by
          simp [workerLoop, workerLoopAux, RETRY_COUNT, h0, hr0, h1]
        rw [hval]
        refine ⟨?_, ?_, ?_, ?_, ?_, ?_⟩
        · simp [RETRY_COUNT]
        · intro i hi
          have hz : i = 0 := by simp at hi; omega
          subst hz
          exact ⟨e0, h0, hr0⟩
        · intro e he
          simp at he
        · intro e he
          simp at he
          rw [h1] at he
          exact AttemptResult.noConfusion he
        · intro i hi h
          simp at hi
          interval_cases i
          · rw [h0] at h
            exact AttemptResult.noConfusion h
          · rw [h1] at h
            exact AttemptResult.noConfusion h
        · intro i hi h
          exact ⟨rfl, rfl⟩
      · cases hr1 : retryable e1
        · -- attempt 1 fails non-retryably
          have hval : workerLoop drops attempts = ⟨[], some e1, 2⟩ := by
            simp [workerLoop, workerLoopAux, RETRY_COUNT, h0, hr0, h1, hr1]
          rw [hval]
          refine ⟨?_, ?_, ?_, ?_, ?_, ?_⟩
          · simp [RETRY_COUNT]
          · intro i hi
            have hz : i = 0 := by simp at hi; omega
            subst hz
            exact ⟨e0, h0, hr0⟩
          · intro e he
            simp at he
            subst he
            exact ⟨by simpa using h1, Or.inl hr1⟩
          · intro e he
            simp at he
            rw [h1] at he
            injection he with h
            subst h
            rfl
          · intro i hi h
            simp at hi
            interval_cases i
            · rw [h0] at h
              exact AttemptResult.noConfusion h
            · rw [h1] at h
              exact AttemptResult.noConfusion h
          · intro i hi h
            simp at hi
            interval_cases i
            · rw [h0] at h
              exact AttemptResult.noConfusion h
            · rw [h1] at h
              exact AttemptResult.noConfusion h
        · -- attempt 1 fails retryably: attempt 2 happens, the last
          rcases h2 : attempts 2 with _ | _ | e2
          · have hval : workerLoop drops attempts = ⟨drops, none, 3⟩ := by
              simp [workerLoop, workerLoopAux, RETRY_COUNT, h0, hr0, h1, hr1, h2]
            rw [hval]
            refine ⟨?_, ?_, ?_, ?_, ?_, ?_⟩
            · simp [RETRY_COUNT]
            · intro i hi
              have hz : i = 0 ∨ i = 1 := by simp at hi; omega
              rcases hz with rfl | rfl
              · exact ⟨e0, h0, hr0⟩
              · exact ⟨e1, h1, hr1⟩
            · intro e he
              simp at he
            · intro e he
              simp at he
              rw [h2] at he
              exact AttemptResult.noConfusion he
            · intro i hi h
              exact ⟨rfl, rfl⟩
            · intro i hi h
              simp at hi
              interval_cases i
              · rw [h0] at h
                exact AttemptResult.noConfusion h
              · rw [h1] at h
                exact AttemptResult.noConfusion h
              · rw [h2] at h
                exact AttemptResult.noConfusion h
          · have hval : workerLoop drops attempts = ⟨[], none, 3⟩ := by
              simp [workerLoop, workerLoopAux, RETRY_COUNT, h0, hr0, h1, hr1, h2]
            rw [hval]
            refine ⟨?_, ?_, ?_, ?_, ?_, ?_⟩
            · simp [RETRY_COUNT]
            · intro i hi
              have hz : i = 0 ∨ i = 1 := by simp at hi; omega
              rcases hz with rfl | rfl
              · exact ⟨e0, h0, hr0⟩
              · exact ⟨e1, h1, hr1⟩
            · intro e he
              simp at he
            · intro e he
              simp at he
              rw [h2] at he
              exact AttemptResult.noConfusion he
            · intro i hi h
              simp at hi
              interval_cases i
              · rw [h0] at h
                exact AttemptResult.noConfusion h
              · rw [h1] at h
                exact AttemptResult.noConfusion h
              · rw [h2] at h
                exact AttemptResult.noConfusion h
            · intro i hi h
              exact ⟨rfl, rfl⟩
          · -- the third attempt fails: Error is posted whatever the class
            have hval : workerLoop drops attempts = ⟨[], some e2, 3⟩ := by
              simp [workerLoop, workerLoopAux, RETRY_COUNT, h0, hr0, h1, hr1, h2]
            rw [hval]
            refine ⟨?_, ?_, ?_, ?_, ?_, ?_⟩
            · simp [RETRY_COUNT]
            · intro i hi
              have hz : i = 0 ∨ i = 1 := by simp at hi; omega
              rcases hz with rfl | rfl
              · exact ⟨e0, h0, hr0⟩
              · exact ⟨e1, h1, hr1⟩
            · intro e he
              simp at he
              subst he
              exact ⟨by simpa using h2, Or.inr (by simp [RETRY_COUNT])⟩
            · intro e he
              simp at he
              rw [h2] at he
              injection he with h
              subst h
              rfl
            · intro i hi h
              simp at hi
              interval_cases i
              · rw [h0] at h
                exact AttemptResult.noConfusion h
              · rw [h1] at h
                exact AttemptResult.noConfusion h
              · rw [h2] at h
                exact AttemptResult.noConfusion h
            · intro i hi h
              simp at hi
              interval_cases i
              · rw [h0] at h
                exact AttemptResult.noConfusion h
              · rw [h1] at h
                exact AttemptResult.noConfusion h
              · rw [h2] at h
                exact AttemptResult.noConfusion h

/-- Witness for C7, the network-flap scenario: two `Communication` failures
then success; the worker records the bucket's checksums and posts no
error. -/
theorem workerLoop_spec_witness :
    (workerLoop [("h1")] c7attempts).completed = [("h1")]
    ∧ (workerLoop [("h1")] c7attempts).posted = none :=
  (workerLoop_spec [("h1")] c7attempts).2.2.2.2.1 2 (by decide) (by decide)

/-! ### C4 — rolling window mean over the most recent `min(current, S)` samples -/

theorem filter_enumFrom_take (l : List Nat) (k c : Nat) :
    ((List.enumFrom k l).filter (fun p => p.1 < c)).map Prod.snd = l.take (c - k) := by
  induction l generalizing k with
  | nil => simp
  | cons a t ih =>
    by_cases hk : k < c
    · have hck : c - k = (c - (k + 1)) + 1 := by omega
      simp [List.enumFrom, hk, ih, hck]
    · have hck : c - k = 0 := by omega
      have hck2 : c - (k + 1) = 0 := by omega
      simp [List.enumFrom, hk, ih, hck, hck2]

theorem getD_set_self (l : List Nat) (i x : Nat) (h : i < l.length) :
    (l.set i x).getD i 0 = x := by
  induction l generalizing i with
  | nil => simp at h
  | cons a t ih =>
    cases i with
    | zero => simp
    | succ n => simpa using ih n (by simpa using h)

theorem getD_set_ne (l : List Nat) (i j x : Nat) (h : i ≠ j) :
    (l.set i x).getD j 0 = l.getD j 0 := by
  induction l generalizing i j with
  | nil => simp
  | cons a t ih =>
    cases i with
    | zero =>
      cases j with
      | zero => exact absurd rfl h
      | succ m => simp
    | succ n =>
      cases j with
      | zero => simp
      | succ m => simpa using ih n m (by omega)

theorem getD_append_left (l l2 : List Nat) (m : Nat) (h : m < l.length) :
    (l ++ l2).getD m 0 = l.getD m 0 := by
  induction l generalizing m with
  | nil => simp at h
  | cons a t ih =>
    cases m with
    | zero => simp
    | succ n => simpa using ih n (by simpa using h)

theorem getD_concat_length (l : List Nat) (v : Nat) :
    (l ++ [v]).getD l.length 0 = v := by
  induction l with
  | nil => simp
  | cons a t ih => simp [ih]

theorem sum_set_getD (l : List Nat) (i x : Nat) (h : i < l.length) :
    (l.set i x).sum + l.getD i 0 = l.sum + x := by
  induction l generalizing i with
  | nil => simp at h
  | cons a t ih =>
    cases i with
    | zero =>
      simp only [List.set_cons_zero, List.sum_cons, List.getD_cons_zero]
      omega
    | succ n =>
      have := ih n (by simpa using h)
      simp only [List.set_cons_succ, List.sum_cons, List.getD_cons_succ]
      omega

theorem take_succ_set_self (l : List Nat) (i x : Nat) (h : i < l.length) :
    (l.set i x).take (i + 1) = l.take i ++ [x] := by
  induction l generalizing i with
  | nil => simp at h
  | cons a t ih =>
    cases i with
    | zero => simp
    | succ n => simpa using ih n (by simpa using h)

theorem applyUpdates_window_length (S : Nat) (vs : List Nat) :
    (RollingProgressWindow.applyUpdates S vs).window.length = S := by
  have key : ∀ (w : RollingProgressWindow), w.window.length = S →
      (vs.foldl RollingProgressWindow.update w).window.length = S := by
    induction vs with
    | nil => intro w h; exact h
    | cons v t ih =>
      intro w h
      exact ih _ (by simp [RollingProgressWindow.update, h])
  exact key _ (by simp [RollingProgressWindow.new])

theorem applyUpdates_current (S : Nat) (vs : List Nat) :
    (RollingProgressWindow.applyUpdates S vs).current = vs.length := by
  have key : ∀ (w : RollingProgressWindow),
      (vs.foldl RollingProgressWindow.update w).current = w.current + vs.length := by
    induction vs with
    | nil => intro w; simp
    | cons v t ih =>
      intro w
      rw [List.foldl_cons, ih]
      simp [RollingProgressWindow.update]
      omega
  rw [RollingProgressWindow.applyUpdates, key]
  simp [RollingProgressWindow.new]

theorem applyUpdates_append_single (S : Nat) (vs : List Nat) (v : Nat) :
    RollingProgressWindow.applyUpdates S (vs ++ [v]) =
      RollingProgressWindow.update (RollingProgressWindow.applyUpdates S vs) v := by
  simp [RollingProgressWindow.applyUpdates, List.foldl_append]

theorem applyUpdates_slot (S : Nat) (hS : 0 < S) (vs : List Nat) :
    ∀ m, m < vs.length → vs.length ≤ m + S →
      (RollingProgressWindow.applyUpdates S vs).window.getD (m % S) 0 = vs.getD m 0 := by
  induction vs using List.reverseRecOn with
  | nil =>
    intro m hm _
    simp at hm
  | append_singleton vs v ih =>
    intro m hm hle
    simp only [List.length_append, List.length_cons, List.length_nil] at hm hle
    rw [applyUpdates_append_single]
    have hcur : (RollingProgressWindow.applyUpdates S vs).current = vs.length :=
      applyUpdates_current S vs
    have hlen : (RollingProgressWindow.applyUpdates S vs).window.length = S :=
      applyUpdates_window_length S vs
    have hwin : (RollingProgressWindow.update
        (RollingProgressWindow.applyUpdates S vs) v).window =
        (RollingProgressWindow.applyUpdates S vs).window.set (vs.length % S) v := by
      simp [RollingProgressWindow.update, hcur, hlen]
    rw [hwin]
    by_cases hmn : m = vs.length
    · subst hmn
      rw [getD_set_self _ _ _ (by rw [hlen]; exact Nat.mod_lt _ hS)]
      exact (getD_concat_length vs v).symm
    · have hmlt : m < vs.length := by omega
      have hne : vs.length % S ≠ m % S := by
        intro heq
        have hdvd : S ∣ vs.length - m :=
          (Nat.modEq_iff_dvd' (le_of_lt hmlt)).mp heq.symm
        have := Nat.le_of_dvd (by omega) hdvd
        omega
      rw [getD_set_ne _ _ _ _ hne, ih m hmlt (by omega)]
      exact (getD_append_left vs [v] m hmlt).symm

theorem applyUpdates_take_sum (S : Nat) (hS : 0 < S) (vs : List Nat) :
    ((RollingProgressWindow.applyUpdates S vs).window.take (min vs.length S)).sum =
      (vs.drop (vs.length - S)).sum := by
  induction vs using List.reverseRecOn with
  | nil => simp
  | append_singleton vs v ih =>
    rw [applyUpdates_append_single]
    have hcur : (RollingProgressWindow.applyUpdates S vs).current = vs.length :=
      applyUpdates_current S vs
    have hlen : (RollingProgressWindow.applyUpdates S vs).window.length = S :=
      applyUpdates_window_length S vs
    have hwin : (RollingProgressWindow.update
        (RollingProgressWindow.applyUpdates S vs) v).window =
        (RollingProgressWindow.applyUpdates S vs).window.set (vs.length % S) v := by
      simp [RollingProgressWindow.update, hcur, hlen]
    rw [hwin]
    simp only [List.length_append, List.length_cons, List.length_nil]
    by_cases hn : vs.length < S
    · have hmod : vs.length % S = vs.length := Nat.mod_eq_of_lt hn
      have hmin1 : min (vs.length + 1) S = vs.length + 1 := by omega
      have hmin0 : min vs.length S = vs.length := by omega
      rw [hmod, hmin1,
        take_succ_set_self _ _ _ (by rw [hlen]; exact lt_of_lt_of_le hn (le_refl S))]
      rw [List.sum_append]
      rw [hmin0] at ih
      have hdrop0 : vs.length - S = 0 := by omega
      have hdrop1 : vs.length + 1 - S = 0 := by omega
      rw [hdrop0] at ih
      rw [hdrop1]
      simp only [List.drop_zero] at ih ⊢
      rw [List.sum_append]
      simp [ih]
    · have hSn : S ≤ vs.length := by omega
      have hmin1 : min (vs.length + 1) S = S := by omega
      have hmin0 : min vs.length S = S := by omega
      rw [hmin1]
      have htakeset : ((RollingProgressWindow.applyUpdates S vs).window.set
          (vs.length % S) v).take S =
          (RollingProgressWindow.applyUpdates S vs).window.set (vs.length % S) v := by
        apply List.take_of_length_le
        simp [hlen]
      rw [htakeset]
      have htake : (RollingProgressWindow.applyUpdates S vs).window.take S =
          (RollingProgressWindow.applyUpdates S vs).window := by
        apply List.take_of_length_le
        simp [hlen]
      rw [hmin0, htake] at ih
      have hslot : (RollingProgressWindow.applyUpdates S vs).window.getD
          (vs.length % S) 0 = vs.getD (vs.length - S) 0 := by
        have hms : (vs.length - S) % S = vs.length % S := by
          conv_rhs => rw [show vs.length = (vs.length - S) + S by omega]
          rw [Nat.add_mod_right]
        rw [← hms]
        exact applyUpdates_slot S hS vs (vs.length - S) (by omega) (by omega)
      have hsum := sum_set_getD
        ((RollingProgressWindow.applyUpdates S vs).window) (vs.length % S) v
        (by rw [hlen]; exact Nat.mod_lt _ hS)
      rw [hslot] at hsum
      have hdropapp : (vs ++ [v]).drop (vs.length + 1 - S) =
          vs.drop (vs.length + 1 - S) ++ [v] := by
        apply List.drop_append_of_le_length
        omega
      rw [hdropapp, List.sum_append]
      have hdropcons : (vs.drop (vs.length - S)).sum =
          vs.getD (vs.length - S) 0 + (vs.drop (vs.length + 1 - S)).sum := by
        have h1 : vs.length + 1 - S = (vs.length - S) + 1 := by omega
        have h2 : vs.length - S < vs.length := by omega
        rw [h1, List.drop_eq_getElem_cons h2, List.sum_cons,
          List.getD_eq_getElem _ _ h2]
      simp only [List.sum_cons, List.sum_nil]
      omega

/-- C4 (amended): after any non-empty sequence of `update(v)` calls on a
rolling window of capacity `S > 0`, `get_average()` returns the integer mean
of the most recent `min(current, S)` samples — it averages only the entries
written so far during warm-up — but on zero samples it divides by zero
(panics) instead of being defined. -/
theorem rolling_get_average_eq (S : Nat) (hS : 0 < S) (vs : List Nat)
    (hvs : vs ≠ []) :
    (vs.drop (vs.length - S)).length = min vs.length S
    ∧ RollingProgressWindow.get_average (RollingProgressWindow.applyUpdates S vs) =
      some ((vs.drop (vs.length - S)).sum / (vs.drop (vs.length - S)).length) := by
  have hwl := applyUpdates_window_length S vs
  have hcur := applyUpdates_current S vs
  have hlen : (vs.drop (vs.length - S)).length = min vs.length S := by
    rw [List.length_drop]
    omega
  have hnpos : 0 < vs.length := List.length_pos.mpr hvs
  refine ⟨hlen, ?_⟩
  simp only [RollingProgressWindow.get_average]
  have henum : (RollingProgressWindow.applyUpdates S vs).window.enum =
      List.enumFrom 0 (RollingProgressWindow.applyUpdates S vs).window := rfl
  simp only [hcur, henum]
  rw [filter_enumFrom_take, Nat.sub_zero]
  have htakemin : (RollingProgressWindow.applyUpdates S vs).window.take vs.length =
      (RollingProgressWindow.applyUpdates S vs).window.take (min vs.length S) := by
    rcases le_or_lt vs.length S with hns | hsn
    · rw [min_eq_left hns]
    · rw [min_eq_right (le_of_lt hsn)]
      rw [List.take_of_length_le (by omega), List.take_of_length_le (by omega)]
  rw [htakemin]
  have hamount : ((RollingProgressWindow.applyUpdates S vs).window.take
      (min vs.length S)).length = min vs.length S := by
    rw [List.length_take, hwl]
    omega
  rw [hamount, applyUpdates_take_sum S hS vs, hlen]
  have hne : ¬(min vs.length S = 0) := by omega
  simp [hne]

/-- Witness for C4's amended claim: capacity 3, samples `[2, 4]`; the mean of
the two samples written so far is returned. -/
theorem rolling_get_average_witness :
    ((([2, 4] : List Nat).drop (([2, 4] : List Nat).length - 3)).length =
        min ([2, 4] : List Nat).length 3)
    ∧ RollingProgressWindow.get_average (RollingProgressWindow.applyUpdates 3 [2, 4]) =
        some ((([2, 4] : List Nat).drop (([2, 4] : List Nat).length - 3)).sum /
          (([2, 4] : List Nat).drop (([2, 4] : List Nat).length - 3)).length) :=
  rolling_get_average_eq 3 (by decide) [2, 4] (by decide)

/-! ### C8 — queue / registry key-set synchronisation -/

theorem alookup_isSome_iff {κ β : Type} [DecidableEq κ] (l : List (κ × β)) (k : κ) :
    (alookup l k).isSome ↔ k ∈ l.map Prod.fst := by
  induction l with
  | nil => simp [alookup]
  | cons p rest ih =>
    by_cases h : p.1 = k
    · simp [alookup, h]
    · simp only [alookup, h, if_false, List.map_cons, List.mem_cons, ih]
      constructor
      · exact Or.inr
      · rintro (rfl | hm)
        · exact absurd rfl h
        · exact hm

theorem mem_keys_aset {κ β : Type} [DecidableEq κ] (l : List (κ × β)) (k k2 : κ) (v : β) :
    k2 ∈ (aset l k v).map Prod.fst ↔ (k2 ∈ l.map Prod.fst ∨ k2 = k) := by
  induction l with
  | nil => simp [aset, eq_comm]
  | cons p rest ih =>
    by_cases h : p.1 = k
    · subst h
      simp [aset]
      tauto
    · simp only [aset, h, if_false, List.map_cons, List.mem_cons, ih]
      tauto

theorem nodup_keys_aset {κ β : Type} [DecidableEq κ] (l : List (κ × β)) (k : κ) (v : β)
    (h : (l.map Prod.fst).Nodup) : ((aset l k v).map Prod.fst).Nodup := by
  induction l with
  | nil => simp [aset]
  | cons p rest ih =>
    rw [List.map_cons, List.nodup_cons] at h
    by_cases hp : p.1 = k
    · subst hp
      simpa [aset] using h
    · rw [show aset (p :: rest) k v = p :: aset rest k v from by simp [aset, hp]]
      rw [List.map_cons, List.nodup_cons]
      refine ⟨?_, ih h.2⟩
      intro hmem
      rcases (mem_keys_aset rest k p.1 v).mp hmem with h1 | h1
      · exact h.1 h1
      · exact hp h1

theorem mem_keys_aremove {κ β : Type} [DecidableEq κ] (l : List (κ × β)) (k k2 : κ)
    (h : (l.map Prod.fst).Nodup) :
    k2 ∈ (aremove l k).map Prod.fst ↔ (k2 ∈ l.map Prod.fst ∧ k2 ≠ k) := by
  induction l with
  | nil => simp [aremove]
  | cons p rest ih =>
    rw [List.map_cons, List.nodup_cons] at h
    by_cases hp : p.1 = k
    · subst hp
      rw [show aremove (p :: rest) p.1 = rest from by simp [aremove]]
      rw [List.map_cons, List.mem_cons]
      constructor
      · intro hm
        exact ⟨Or.inr hm, fun he => h.1 (he ▸ hm)⟩
      · rintro ⟨rfl | h1, hne⟩
        · exact absurd rfl hne
        · exact h1
    · rw [show aremove (p :: rest) k = p :: aremove rest k from by simp [aremove, hp]]
      rw [List.map_cons, List.mem_cons, List.map_cons, List.mem_cons, ih h.2]
      constructor
      · rintro (rfl | ⟨h1, h2⟩)
        · exact ⟨Or.inl rfl, hp⟩
        · exact ⟨Or.inr h1, h2⟩
      · rintro ⟨rfl | h1, h2⟩
        · exact Or.inl rfl
        · exact Or.inr ⟨h1, h2⟩

theorem nodup_keys_aremove {κ β : Type} [DecidableEq κ] (l : List (κ × β)) (k : κ)
    (h : (l.map Prod.fst).Nodup) : ((aremove l k).map Prod.fst).Nodup := by
  induction l with
  | nil => simp [aremove]
  | cons p rest ih =>
    rw [List.map_cons, List.nodup_cons] at h
    by_cases hp : p.1 = k
    · subst hp
      rw [show aremove (p :: rest) p.1 = rest from by simp [aremove]]
      exact h.2
    · rw [show aremove (p :: rest) k = p :: aremove rest k from by simp [aremove, hp]]
      rw [List.map_cons, List.nodup_cons]
      refine ⟨?_, ih h.2⟩
      intro hmem
      exact h.1 ((mem_keys_aremove rest k p.1 h.2).mp hmem).1

theorem keys_map_keep {κ β : Type} [DecidableEq κ] (l : List (κ × β))
    (g : κ × β → κ × β) (hg : ∀ p, (g p).1 = p.1) :
    (l.map g).map Prod.fst = l.map Prod.fst := by
  induction l with
  | nil => rfl
  | cons p rest ih => simp [hg, ih]

theorem eraseIdx_findIdx_mem (l : List DownloadableMetadata)
    (meta : DownloadableMetadata) (i : Nat)
    (hfind : l.findIdx? (fun x => x == meta) = some i) (hnd : l.Nodup) :
    ∀ k, k ∈ l.eraseIdx i ↔ (k ∈ l ∧ k ≠ meta) := by
  induction l generalizing i with
  | nil => simp at hfind
  | cons a t ih =>
    rw [List.nodup_cons] at hnd
    rw [List.findIdx?_cons] at hfind
    by_cases ha : a = meta
    · subst ha
      rw [if_pos (by simp)] at hfind
      injection hfind with hi
      subst hi
      intro k
      rw [show (a :: t).eraseIdx 0 = t from rfl, List.mem_cons]
      constructor
      · intro hm
        exact ⟨Or.inr hm, fun he => hnd.1 (he ▸ hm)⟩
      · rintro ⟨rfl | h1, hne⟩
        · exact absurd rfl hne
        · exact h1
    · rw [if_neg (by simp [ha])] at hfind
      rw [List.findIdx?_start_succ] at hfind
      cases hj : t.findIdx? (fun x => x == meta) 0 with
      | none => rw [hj] at hfind; simp at hfind
      | some j =>
        rw [hj] at hfind
        have hi : i = j + 1 := by
          simp at hfind
          omega
        intro k
        rw [hi, show (a :: t).eraseIdx (j + 1) =
          a :: t.eraseIdx j from rfl, List.mem_cons, List.mem_cons,
          ih j hj hnd.2 k]
        constructor
        · rintro (rfl | ⟨h1, h2⟩)
          · exact ⟨Or.inl rfl, ha⟩
          · exact ⟨Or.inr h1, h2⟩
        · rintro ⟨rfl | h1, h2⟩
          · exact Or.inl rfl
          · exact Or.inr ⟨h1, h2⟩

theorem managerInv_step (st : ManagerState) (sig : DlSignal)
    (h : managerInv st) : managerInv (step st sig) := by
  obtain ⟨hq, hr, hk⟩ := h
  cases sig with
  | queueSig meta =>
    simp only [step, manage_queue_signal]
    split
    · exact ⟨hq, hr, hk⟩
    · rename_i hc
      have hmem : meta ∉ st.download_queue := fun hm => hc (List.elem_iff.mpr hm)
      refine ⟨?_, nodup_keys_aset _ _ _ hr, ?_⟩
      · show (st.download_queue ++ [meta]).Nodup
        rw [List.nodup_append]
        refine ⟨hq, List.nodup_singleton _, ?_⟩
        intro a ha hb
        exact hmem ((List.mem_singleton.mp hb) ▸ ha)
      · intro k
        show k ∈ st.download_queue ++ [meta] ↔ _
        rw [List.mem_append, List.mem_singleton, mem_keys_aset]
        exact or_congr (hk k) Iff.rfl
  | go =>
    simp only [step, manage_go_signal]
    split
    · exact ⟨hq, hr, hk⟩
    · split
      · exact ⟨hq, hr, hk⟩
      · rename_i front hh
        split
        · exact ⟨hq, hr, hk⟩
        · rename_i status hl
          split
          · exact ⟨hq, hr, hk⟩
          · have hgkeep : ∀ p : DownloadableMetadata × DownloadStatus,
                ((fun p => if p.1 ≠ front ∧ p.2 ≠ DownloadStatus.queued
                  then (p.1, DownloadStatus.queued) else p) p).1 = p.1 := by
              intro p
              by_cases hc2 : p.1 ≠ front ∧ p.2 ≠ DownloadStatus.queued
              · simp [hc2]
              · simp [hc2]
            have hfr : front ∈ st.registry.map Prod.fst :=
              (alookup_isSome_iff _ _).mp (by simp [hl])
            refine ⟨hq, ?_, ?_⟩
            · show ((aset (st.registry.map _) front
                  DownloadStatus.downloading).map Prod.fst).Nodup
              apply nodup_keys_aset
              rw [keys_map_keep _ _ hgkeep]
              exact hr
            · intro k
              show k ∈ st.download_queue ↔ _
              rw [mem_keys_aset, keys_map_keep _ _ hgkeep]
              constructor
              · intro hkq
                exact Or.inl ((hk k).mp hkq)
              · rintro (h1 | rfl)
                · exact (hk k).mpr h1
                · exact (hk k).mpr hfr
  | stop =>
    simp only [step, manage_stop_signal]
    split
    · exact ⟨hq, hr, hk⟩
    · exact ⟨hq, hr, hk⟩
  | completed meta =>
    simp only [step, manage_completed_signal]
    split
    · rename_i hh
      obtain ⟨rest, hrest⟩ : ∃ rest, st.download_queue = meta :: rest := by
        cases hqq : st.download_queue with
        | nil => rw [hqq] at hh; simp at hh
        | cons a t =>
          rw [hqq] at hh
          simp only [List.head?_cons, Option.some_inj] at hh
          exact ⟨t, by rw [hh]⟩
      have hq2 := hq
      rw [hrest] at hq2
      have hnm : meta ∉ rest := (List.nodup_cons.mp hq2).1
      refine ⟨?_, nodup_keys_aremove _ _ hr, ?_⟩
      · show (st.download_queue.tail).Nodup
        rw [hrest]
        exact (List.nodup_cons.mp hq2).2
      · intro k
        show k ∈ st.download_queue.tail ↔
          k ∈ (aremove st.registry meta).map Prod.fst
        rw [mem_keys_aremove _ _ _ hr, hrest, List.tail_cons]
        have hk2 := hk k
        rw [hrest] at hk2
        constructor
        · intro hkr
          refine ⟨hk2.mp (List.mem_cons_of_mem _ hkr), ?_⟩
          intro he
          subst he
          exact hnm hkr
        · rintro ⟨h1, h2⟩
          rcases List.mem_cons.mp (hk2.mpr h1) with rfl | hm
          · exact absurd rfl h2
          · exact hm
    · exact ⟨hq, hr, hk⟩
  | cancel meta =>
    simp only [step, manage_cancel_signal]
    split
    · rename_i hcond
      have hh := hcond.1
      obtain ⟨rest, hrest⟩ : ∃ rest, st.download_queue = meta :: rest := by
        cases hqq : st.download_queue with
        | nil => rw [hqq] at hh; simp at hh
        | cons a t =>
          rw [hqq] at hh
          simp only [List.head?_cons, Option.some_inj] at hh
          exact ⟨t, by rw [hh]⟩
      have hq2 := hq
      rw [hrest] at hq2
      have hnm : meta ∉ rest := (List.nodup_cons.mp hq2).1
      refine ⟨?_, nodup_keys_aremove _ _ hr, ?_⟩
      · show (st.download_queue.tail).Nodup
        rw [hrest]
        exact (List.nodup_cons.mp hq2).2
      · intro k
        show k ∈ st.download_queue.tail ↔
          k ∈ (aremove st.registry meta).map Prod.fst
        rw [mem_keys_aremove _ _ _ hr, hrest, List.tail_cons]
        have hk2 := hk k
        rw [hrest] at hk2
        constructor
        · intro hkr
          refine ⟨hk2.mp (List.mem_cons_of_mem _ hkr), ?_⟩
          intro he
          subst he
          exact hnm hkr
        · rintro ⟨h1, h2⟩
          rcases List.mem_cons.mp (hk2.mpr h1) with rfl | hm
          · exact absurd rfl h2
          · exact hm
    · split
      · split
        · refine ⟨List.Nodup.sublist (List.eraseIdx_sublist _ _) hq,
            nodup_keys_aremove _ _ hr, ?_⟩
          rename_i index hf
          intro k
          have herase := eraseIdx_findIdx_mem st.download_queue meta index hf hq
          show k ∈ st.download_queue.eraseIdx index ↔ _
          rw [herase k, mem_keys_aremove _ _ _ hr]
          exact and_congr (hk k) Iff.rfl
        · exact ⟨hq, hr, hk⟩
      · exact ⟨hq, hr, hk⟩
  | errorSig =>
    simp only [step, manage_error_signal]
    split
    · exact ⟨hq, hr, hk⟩
    · rename_i front hh
      split
      · exact ⟨hq, hr, hk⟩
      · rename_i status hl
        obtain ⟨rest, hrest⟩ : ∃ rest, st.download_queue = front :: rest := by
          cases hqq : st.download_queue with
          | nil => rw [hqq] at hh; simp at hh
          | cons a t =>
            rw [hqq] at hh
            simp only [List.head?_cons, Option.some_inj] at hh
            exact ⟨t, by rw [hh]⟩
        have hq2 := hq
        rw [hrest] at hq2
        have hnm : front ∉ rest := (List.nodup_cons.mp hq2).1
        have hra : ((aset st.registry front DownloadStatus.error).map
            Prod.fst).Nodup := nodup_keys_aset _ _ _ hr
        refine ⟨?_, nodup_keys_aremove _ _ hra, ?_⟩
        · show (st.download_queue.tail).Nodup
          rw [hrest]
          exact (List.nodup_cons.mp hq2).2
        · intro k
          show k ∈ st.download_queue.tail ↔
            k ∈ (aremove (aset st.registry front DownloadStatus.error)
              front).map Prod.fst
          rw [mem_keys_aremove _ _ _ hra, mem_keys_aset, hrest, List.tail_cons]
          have hk2 := hk k
          rw [hrest] at hk2
          constructor
          · intro hkr
            have hne : k ≠ front := fun he => hnm (he ▸ hkr)
            exact ⟨Or.inl (hk2.mp (List.mem_cons_of_mem _ hkr)), hne⟩
          · rintro ⟨h1 | rfl, h2⟩
            · rcases List.mem_cons.mp (hk2.mpr h1) with rfl | hm
              · exact absurd rfl h2
              · exact hm
            · exact absurd rfl h2
  | updateUIQueue => exact ⟨hq, hr, hk⟩
  | updateUIStats kbs time => exact ⟨hq, hr, hk⟩
  | finish => exact ⟨hq, hr, hk⟩

theorem managerInv_runSignals (sigs : List DlSignal) :
    managerInv (runSignals sigs) := by
  have key : ∀ (l : List DlSignal) (st : ManagerState), managerInv st →
      managerInv (l.foldl step st) := by
    intro l
    induction l with
    | nil => intro st h; exact h
    | cons s t ih => intro st h; exact ih _ (managerInv_step st s h)
  refine key sigs initialManagerState ⟨List.nodup_nil, ?_, ?_⟩
  · simp [initialManagerState]
  · intro k
    simp [initialManagerState]

/-- C8: for every sequence of signals processed by the queue manager from
its initial state, the set of keys in the download queue equals the key set
of the download-agent registry at every signal boundary. -/
theorem queue_registry_sync (sigs : List DlSignal) :
    ∀ k, k ∈ (runSignals sigs).download_queue ↔
      k ∈ (runSignals sigs).registry.map Prod.fst :=
  (managerInv_runSignals sigs).2.2

/-! ### C5 — bucket size and count bounds -/

theorem alookup_aset_self {κ β : Type} [DecidableEq κ] (l : List (κ × β)) (k : κ)
    (v : β) : alookup (aset l k v) k = some v := by
  induction l with
  | nil => simp [aset, alookup]
  | cons p rest ih =>
    by_cases h : p.1 = k
    · simp [aset, h, alookup]
    · simp [aset, h, alookup, ih]

theorem alookup_aset_ne {κ β : Type} [DecidableEq κ] (l : List (κ × β)) (k k2 : κ)
    (v : β) (h : k ≠ k2) : alookup (aset l k v) k2 = alookup l k2 := by
  induction l with
  | nil => simp [aset, alookup, h]
  | cons p rest ih =>
    by_cases hp : p.1 = k
    · subst hp
      simp [aset, alookup, h]
    · simp [aset, hp, alookup, ih]

theorem processDrop_ok (g v : String) (st : PlannerState) (d : DownloadDrop)
    (h : plannerOk st) : plannerOk (processDrop g v st d) := by
  obtain ⟨hb, hnd, hp⟩ := h
  have hcd : ((alookup st.currentBuckets v).getD
      { game_id := g, version := v, drops := [] }).drops = pendDrops st v := by
    cases halo : alookup st.currentBuckets v <;> simp [pendDrops, halo]
  have hflushOk : bucketOk ((alookup st.currentBuckets v).getD
      { game_id := g, version := v, drops := [] }) := by
    refine Or.inr ⟨?_, ?_, ?_⟩
    · rw [hcd, (hp v).1]
      exact le_of_lt (hp v).2.1
    · rw [hcd]
      exact (hp v).2.2.1
    · rw [hcd]
      exact (hp v).2.2.2.2
  simp only [processDrop]
  split
  · rename_i hbig
    refine ⟨?_, hnd, hp⟩
    intro b hbm
    rcases List.mem_append.mp hbm with hm | hm
    · exact hb b hm
    · rcases List.mem_singleton.mp hm with rfl
      exact Or.inl ⟨d, rfl, hbig⟩
  · rename_i hbig
    have hdlen : d.length < TARGET_BUCKET_SIZE := by omega
    split
    · rename_i hcond
      refine ⟨?_, nodup_keys_aset _ _ _ hnd, ?_⟩
      · intro b hbm
        rcases List.mem_append.mp hbm with hm | hm
        · exact hb b hm
        · rcases List.mem_singleton.mp hm with rfl
          exact hflushOk
      · intro v2
        by_cases hv : v = v2
        · subst hv
          refine ⟨?_, ?_, ?_, ?_, ?_⟩ <;>
            simp only [pendDrops, pendSize, alookup_aset_self, Option.map_some,
              Option.getD_some]
          · simp
          · exact hdlen
          · show 1 ≤ MAX_FILES_PER_BUCKET
            norm_num [MAX_FILES_PER_BUCKET]
          · intro hcontra
            simp at hcontra
          · intro x hx
            rcases List.mem_singleton.mp hx with rfl
            exact hdlen
        · have hfacts := hp v2
          simp only [pendDrops, pendSize] at hfacts ⊢
          simp only [alookup_aset_ne _ _ _ _ hv]
          exact hfacts
    · rename_i hcond
      refine ⟨hb, nodup_keys_aset _ _ _ hnd, ?_⟩
      intro v2
      by_cases hv : v = v2
      · subst hv
        obtain ⟨hsum, hlt, hcnt, hemp, hall⟩ := hp v
        have hpdlem : pendDrops (processDrop g v st d) v =
            pendDrops st v ++ [d] := by
          conv_lhs => simp only [processDrop, if_neg hbig, if_neg hcond,
            pendDrops, alookup_aset_self, Option.map_some, Option.getD_some]
          rw [hcd]
          simp
        have hpslem : pendSize (processDrop g v st d) v =
            pendSize st v + d.length := by
          conv_lhs => simp only [processDrop, if_neg hbig, if_neg hcond,
            pendSize, alookup_aset_self, Option.getD_some]
          rfl
        have hgoal : ((pendDrops st v ++ [d]).map (fun d => d.length)).sum =
              pendSize st v + d.length
            ∧ pendSize st v + d.length < TARGET_BUCKET_SIZE
            ∧ (pendDrops st v ++ [d]).length ≤ MAX_FILES_PER_BUCKET
            ∧ (pendDrops st v ++ [d] = [] → pendSize st v + d.length = 0)
            ∧ ∀ x ∈ pendDrops st v ++ [d], x.length < TARGET_BUCKET_SIZE := by
          by_cases hpe : pendDrops st v = []
          · have hz : pendSize st v = 0 := hemp hpe
            refine ⟨?_, ?_, ?_, ?_, ?_⟩
            · rw [List.map_append, List.sum_append, hsum]
              simp
            · rw [hz]
              omega
            · rw [hpe]
              show 1 ≤ MAX_FILES_PER_BUCKET
              norm_num [MAX_FILES_PER_BUCKET]
            · intro hcontra
              simp at hcontra
            · intro x hx
              rcases List.mem_append.mp hx with hx1 | hx1
              · exact hall x hx1
              · rcases List.mem_singleton.mp hx1 with rfl
                exact hdlen
          · have hne : ((alookup st.currentBuckets v).getD
                { game_id := g, version := v, drops := [] }).drops.isEmpty
                  = false := by
              rw [hcd]
              cases hie : (pendDrops st v).isEmpty
              · rfl
              · exact absurd (List.isEmpty_iff.mp hie) hpe
            have hAB : ¬(TARGET_BUCKET_SIZE ≤
                  (alookup st.currentBucketSizes v).getD 0 + d.length
                ∨ MAX_FILES_PER_BUCKET ≤ ((alookup st.currentBuckets v).getD
                  { game_id := g, version := v, drops := [] }).drops.length) := by
              intro hor
              exact hcond ⟨hor, hne⟩
            rw [not_or] at hAB
            have hA : pendSize st v + d.length < TARGET_BUCKET_SIZE := by
              have h1 := hAB.1
              have h2 : pendSize st v = (alookup st.currentBucketSizes v).getD 0 :=
                rfl
              omega
            have hB : (pendDrops st v).length < MAX_FILES_PER_BUCKET := by
              have h1 := hAB.2
              rw [hcd] at h1
              omega
            refine ⟨?_, hA, ?_, ?_, ?_⟩
            · rw [List.map_append, List.sum_append, hsum]
              simp
            · rw [List.length_append]
              simp only [List.length_singleton]
              omega
            · intro hcontra
              simp at hcontra
            · intro x hx
              rcases List.mem_append.mp hx with hx1 | hx1
              · exact hall x hx1
              · rcases List.mem_singleton.mp hx1 with rfl
                exact hdlen
        have hfin := hgoal
        rw [← hpdlem, ← hpslem] at hfin
        simp only [processDrop, if_neg hbig, if_neg hcond] at hfin
        exact hfin
      · have hfacts := hp v2
        simp only [pendDrops, pendSize] at hfacts ⊢
        simp only [alookup_aset_ne _ _ _ _ hv]
        exact hfacts

theorem processEntryAux_ok (g bp rp : String) (entry : ChunkEntry) :
    ∀ (pairs : List (Nat × Nat)) (offset : Nat) (st : PlannerState),
      plannerOk st → plannerOk (processEntryAux g bp rp entry pairs offset st) := by
  intro pairs
  induction pairs with
  | nil =>
    intro offset st h
    exact h
  | cons p rest ih =>
    obtain ⟨index, len⟩ := p
    intro offset st h
    exact ih _ _ (processDrop_ok g entry.version_name st _ h)

theorem processEntry_ok (g bp : String) (st : PlannerState) (rp : String)
    (entry : ChunkEntry) (h : plannerOk st) :
    plannerOk (processEntry g bp st rp entry) :=
  processEntryAux_ok g bp rp entry entry.lengths.enum 0 st h

theorem alookup_of_mem_nodup {κ β : Type} [DecidableEq κ] (l : List (κ × β))
    (p : κ × β) (hnd : (l.map Prod.fst).Nodup) (hm : p ∈ l) :
    alookup l p.1 = some p.2 := by
  induction l with
  | nil => cases hm
  | cons q rest ih =>
    rw [List.map_cons, List.nodup_cons] at hnd
    rcases List.mem_cons.mp hm with rfl | hm2
    · simp [alookup]
    · have hne : q.1 ≠ p.1 := by
        intro he
        exact hnd.1 (he ▸ List.mem_map_of_mem Prod.fst hm2)
      simp [alookup, hne, ih hnd.2 hm2]

theorem plannerOk_init : plannerOk ⟨[], [], []⟩ := by
  refine ⟨?_, ?_, ?_⟩
  · intro b hb
    cases hb
  · simp
  · intro v
    refine ⟨rfl, ?_, ?_, fun _ => rfl, ?_⟩
    · show 0 < TARGET_BUCKET_SIZE
      norm_num [TARGET_BUCKET_SIZE]
    · show 0 ≤ MAX_FILES_PER_BUCKET
      omega
    · intro d hd
      cases hd

/-- C5: every bucket `generate_buckets` emits is either a singleton holding
one chunk of length at least `TARGET_BUCKET_SIZE`, or a grouped bucket of
total drop length at most `TARGET_BUCKET_SIZE` and drop count at most
`MAX_FILES_PER_BUCKET`; and a drop of length at least `TARGET_BUCKET_SIZE`
is always alone in its bucket. -/
theorem generate_buckets_bounds (g bp : String)
    (manifest : List (String × ChunkEntry)) :
    ∀ b ∈ generate_buckets g bp manifest,
      ((∃ d, b.drops = [d] ∧ TARGET_BUCKET_SIZE ≤ d.length)
        ∨ ((b.drops.map (fun d => d.length)).sum ≤ TARGET_BUCKET_SIZE
            ∧ b.drops.length ≤ MAX_FILES_PER_BUCKET))
      ∧ (∀ d ∈ b.drops, TARGET_BUCKET_SIZE ≤ d.length → b.drops = [d]) := by
  have hfold : plannerOk (manifest.foldl
      (fun st p => processEntry g bp st p.1 p.2) ⟨[], [], []⟩) := by
    have key : ∀ (rest : List (String × ChunkEntry)) (st : PlannerState),
        plannerOk st →
        plannerOk (rest.foldl (fun st p => processEntry g bp st p.1 p.2) st) := by
      intro rest
      induction rest with
      | nil => intro st h; exact h
      | cons q t ih =>
        intro st h
        exact ih _ (processEntry_ok g bp st q.1 q.2 h)
    exact key manifest _ plannerOk_init
  intro b hb
  simp only [generate_buckets] at hb
  have hok : bucketOk b := by
    rcases List.mem_append.mp hb with hm | hm
    · exact hfold.1 b hm
    · rcases List.mem_filter.mp hm with ⟨hm2, _⟩
      rcases List.mem_map.mp hm2 with ⟨pair, hpair, rfl⟩
      have hlk := alookup_of_mem_nodup _ pair hfold.2.1 hpair
      have hpd : pendDrops (manifest.foldl
          (fun st p => processEntry g bp st p.1 p.2) ⟨[], [], []⟩) pair.1
          = pair.2.drops := by
        simp [pendDrops, hlk]
      obtain ⟨hsum, hlt, hcnt, _, hall⟩ := hfold.2.2 pair.1
      rw [hpd] at hsum hcnt hall
      exact Or.inr ⟨by omega, hcnt, hall⟩
  refine ⟨?_, ?_⟩
  · rcases hok with h1 | h1
    · exact Or.inl h1
    · exact Or.inr ⟨h1.1, h1.2.1⟩
  · intro d hd hdbig
    rcases hok with h1 | h1
    · obtain ⟨d2, hd2, _⟩ := h1
      rw [hd2] at hd ⊢
      rcases List.mem_singleton.mp hd with rfl
      rfl
    · exact absurd hdbig (not_le.mpr (h1.2.2 d hd))

/-- Witness for C5: on `c5manifest` the `TARGET_BUCKET_SIZE`-sized chunk is
emitted as a singleton bucket satisfying the bounds. -/
theorem generate_buckets_bounds_witness :
    ((∃ d, c5bigBucket.drops = [d] ∧ TARGET_BUCKET_SIZE ≤ d.length)
      ∨ ((c5bigBucket.drops.map (fun d => d.length)).sum ≤ TARGET_BUCKET_SIZE
          ∧ c5bigBucket.drops.length ≤ MAX_FILES_PER_BUCKET))
    ∧ (∀ d ∈ c5bigBucket.drops, TARGET_BUCKET_SIZE ≤ d.length →
        c5bigBucket.drops = [d]) :=
  generate_buckets_bounds ("g") ("base") c5manifest c5bigBucket (by decide)

/-! ### C6 — prefix-sum offsets and disjoint byte ranges -/

theorem mem_flatMap_aset_drops (l : List (String × DownloadBucket)) (v : String)
    (b : DownloadBucket) (x : DownloadDrop)
    (hx : x ∈ (aset l v b).flatMap (fun p => p.2.drops)) :
    x ∈ b.drops ∨ x ∈ l.flatMap (fun p => p.2.drops) := by
  induction l with
  | nil =>
    simp [aset] at hx
    exact Or.inl hx
  | cons p rest ih =>
    by_cases hp : p.1 = v
    · rw [show aset (p :: rest) v b = (v, b) :: rest from by simp [aset, hp]] at hx
      rcases List.mem_flatMap.mp hx with ⟨q, hq, hxq⟩
      rcases List.mem_cons.mp hq with rfl | hq2
      · exact Or.inl hxq
      · exact Or.inr (List.mem_flatMap.mpr ⟨q, List.mem_cons_of_mem _ hq2, hxq⟩)
    · rw [show aset (p :: rest) v b = p :: aset rest v b from by simp [aset, hp]] at hx
      rcases List.mem_flatMap.mp hx with ⟨q, hq, hxq⟩
      rcases List.mem_cons.mp hq with rfl | hq2
      · exact Or.inr (List.mem_flatMap.mpr ⟨q, List.mem_cons_self _ _, hxq⟩)
      · rcases ih (List.mem_flatMap.mpr ⟨q, hq2, hxq⟩) with h1 | h1
        · exact Or.inl h1
        · rcases List.mem_flatMap.mp h1 with ⟨r, hr, hxr⟩
          exact Or.inr (List.mem_flatMap.mpr ⟨r, List.mem_cons_of_mem _ hr, hxr⟩)

theorem mem_of_alookup {κ β : Type} [DecidableEq κ] (l : List (κ × β)) (k : κ)
    (b : β) (h : alookup l k = some b) : (k, b) ∈ l := by
  induction l with
  | nil => simp [alookup] at h
  | cons p rest ih =>
    by_cases hp : p.1 = k
    · rw [show alookup (p :: rest) k = some p.2 from by simp [alookup, hp]] at h
      injection h with hb
      have : (k, b) = p := by
        rw [← hp, ← hb]
      rw [this]
      exact List.mem_cons_self _ _
    · rw [show alookup (p :: rest) k = alookup rest k from by
        simp [alookup, hp]] at h
      exact List.mem_cons_of_mem _ (ih h)

theorem curBucket_drops_sub (st : PlannerState) (g v : String) (x : DownloadDrop)
    (hx : x ∈ ((alookup st.currentBuckets v).getD
      { game_id := g, version := v, drops := [] }).drops) :
    x ∈ st.currentBuckets.flatMap (fun p => p.2.drops) := by
  cases hl : alookup st.currentBuckets v with
  | none =>
    rw [hl] at hx
    cases hx
  | some b =>
    rw [hl] at hx
    exact List.mem_flatMap.mpr ⟨(v, b), mem_of_alookup _ _ _ hl, hx⟩

theorem processDrop_stateDrops (g v : String) (st : PlannerState)
    (d : DownloadDrop) :
    ∀ x ∈ stateDrops (processDrop g v st d), x ∈ stateDrops st ∨ x = d := by
  intro x hx
  simp only [processDrop] at hx
  split at hx
  · simp only [stateDrops] at hx
    rcases List.mem_append.mp hx with hm | hm
    · rw [List.flatMap_append] at hm
      rcases List.mem_append.mp hm with h1 | h1
      · exact Or.inl (List.mem_append.mpr (Or.inl h1))
      · simp only [List.flatMap_cons, List.flatMap_nil, List.append_nil] at h1
        rcases List.mem_singleton.mp h1 with rfl
        exact Or.inr rfl
    · exact Or.inl (List.mem_append.mpr (Or.inr hm))
  · split at hx
    · simp only [stateDrops] at hx
      rcases List.mem_append.mp hx with hm | hm
      · rw [List.flatMap_append] at hm
        rcases List.mem_append.mp hm with h1 | h1
        · exact Or.inl (List.mem_append.mpr (Or.inl h1))
        · simp only [List.flatMap_cons, List.flatMap_nil, List.append_nil] at h1
          exact Or.inl (List.mem_append.mpr
            (Or.inr (curBucket_drops_sub st g v x h1)))
      · rcases mem_flatMap_aset_drops _ _ _ _ hm with h1 | h1
        · rcases List.mem_singleton.mp h1 with rfl
          exact Or.inr rfl
        · exact Or.inl (List.mem_append.mpr (Or.inr h1))
    · simp only [stateDrops] at hx
      rcases List.mem_append.mp hx with hm | hm
      · exact Or.inl (List.mem_append.mpr (Or.inl hm))
      · rcases mem_flatMap_aset_drops _ _ _ _ hm with h1 | h1
        · rcases List.mem_append.mp h1 with h2 | h2
          · exact Or.inl (List.mem_append.mpr
              (Or.inr (curBucket_drops_sub st g v x h2)))
          · rcases List.mem_singleton.mp h2 with rfl
            exact Or.inr rfl
        · exact Or.inl (List.mem_append.mpr (Or.inr h1))

theorem processEntryAux_good (g bp rp : String) (entry : ChunkEntry)
    (P : DownloadDrop → Prop)
    (hgen : ∀ i, i < entry.lengths.length →
      P { filename := rp, start := (entry.lengths.take i).sum,
          length := entry.lengths.getD i 0,
          checksum := entry.checksums.getD i (""),
          permissions := entry.permissions,
          path := bp ++ ("/") ++ rp, index := i }) :
    ∀ (tail : List Nat) (k : Nat) (st : PlannerState),
      tail = entry.lengths.drop k →
      ∀ x ∈ stateDrops (processEntryAux g bp rp entry (List.enumFrom k tail)
          ((entry.lengths.take k).sum) st),
        x ∈ stateDrops st ∨ P x := by
  intro tail
  induction tail with
  | nil =>
    intro k st _ x hx
    exact Or.inl hx
  | cons len rest ih =>
    intro k st htail x hx
    have hk : k < entry.lengths.length := by
      by_contra hko
      rw [List.drop_eq_nil_of_le (by omega)] at htail
      simp at htail
    rw [List.drop_eq_getElem_cons hk] at htail
    injection htail with hlen hrest
    have henumcons : List.enumFrom k (len :: rest) =
        (k, len) :: List.enumFrom (k + 1) rest := rfl
    rw [henumcons] at hx
    rw [show processEntryAux g bp rp entry
          ((k, len) :: List.enumFrom (k + 1) rest)
          ((entry.lengths.take k).sum) st =
        processEntryAux g bp rp entry (List.enumFrom (k + 1) rest)
          ((entry.lengths.take k).sum + len)
          (processDrop g entry.version_name st
            { filename := rp, start := (entry.lengths.take k).sum, length := len,
              checksum := entry.checksums.getD k (""),
              permissions := entry.permissions,
              path := bp ++ ("/") ++ rp, index := k }) from rfl] at hx
    have hsum : (entry.lengths.take k).sum + len =
        (entry.lengths.take (k + 1)).sum := by
      rw [List.take_succ, List.sum_append, List.getElem?_eq_getElem hk]
      simp [hlen]
    rw [hsum] at hx
    rcases ih (k + 1) _ hrest x hx with h1 | h1
    · rcases processDrop_stateDrops _ _ _ _ x h1 with h2 | h2
      · exact Or.inl h2
      · subst h2
        right
        have hgd : entry.lengths.getD k 0 = len := by
          rw [List.getD_eq_getElem _ _ hk, ← hlen]
        have hP := hgen k hk
        rw [hgd] at hP
        exact hP
    · exact Or.inr h1

theorem processEntry_good (g bp rp : String) (entry : ChunkEntry)
    (P : DownloadDrop → Prop)
    (hgen : ∀ i, i < entry.lengths.length →
      P { filename := rp, start := (entry.lengths.take i).sum,
          length := entry.lengths.getD i 0,
          checksum := entry.checksums.getD i (""),
          permissions := entry.permissions,
          path := bp ++ ("/") ++ rp, index := i })
    (st : PlannerState) :
    ∀ x ∈ stateDrops (processEntry g bp st rp entry), x ∈ stateDrops st ∨ P x := by
  have h0 : entry.lengths = entry.lengths.drop 0 := (List.drop_zero _).symm
  exact processEntryAux_good g bp rp entry P hgen entry.lengths 0 st h0

theorem generate_buckets_good (g bp : String)
    (manifest : List (String × ChunkEntry)) :
    ∀ b ∈ generate_buckets g bp manifest, ∀ x ∈ b.drops,
      goodDrop bp manifest x := by
  have key : ∀ (rest : List (String × ChunkEntry)) (st : PlannerState),
      (∀ p ∈ rest, p ∈ manifest) →
      (∀ x ∈ stateDrops st, goodDrop bp manifest x) →
      ∀ x ∈ stateDrops (rest.foldl
        (fun st p => processEntry g bp st p.1 p.2) st),
        goodDrop bp manifest x := by
    intro rest
    induction rest with
    | nil =>
      intro st _ hst x hx
      exact hst x hx
    | cons q t ih =>
      intro st hsub hst x hx
      refine ih _ (fun p hp => hsub p (List.mem_cons_of_mem _ hp)) ?_ x hx
      intro y hy
      have hgen : ∀ i, i < q.2.lengths.length →
          goodDrop bp manifest
            { filename := q.1, start := (q.2.lengths.take i).sum,
              length := q.2.lengths.getD i 0,
              checksum := q.2.checksums.getD i (""),
              permissions := q.2.permissions,
              path := bp ++ ("/") ++ q.1, index := i } := by
        intro i hi
        exact ⟨q.2, hsub q (List.mem_cons_self _ _), hi, rfl, rfl, rfl, rfl, rfl⟩
      rcases processEntry_good g bp q.1 q.2 (goodDrop bp manifest) hgen st y hy
        with h1 | h1
      · exact hst y h1
      · exact h1
  intro b hb x hx
  simp only [generate_buckets] at hb
  have hxs : x ∈ stateDrops (manifest.foldl
      (fun st p => processEntry g bp st p.1 p.2) ⟨[], [], []⟩) := by
    rcases List.mem_append.mp hb with hm | hm
    · exact List.mem_append.mpr (Or.inl (List.mem_flatMap.mpr ⟨b, hm, hx⟩))
    · rcases List.mem_filter.mp hm with ⟨hm2, _⟩
      rcases List.mem_map.mp hm2 with ⟨pair, hpair, rfl⟩
      exact List.mem_append.mpr (Or.inr (List.mem_flatMap.mpr ⟨pair, hpair, hx⟩))
  refine key manifest ⟨[], [], []⟩ (fun p hp => hp) ?_ x hxs
  intro y hy
  simp [stateDrops] at hy

theorem take_sum_le (l : List Nat) (i : Nat) : (l.take i).sum ≤ l.sum := by
  induction l generalizing i with
  | nil => simp
  | cons a t ih =>
    cases i with
    | zero => simp
    | succ n =>
      simp only [List.take_succ_cons, List.sum_cons]
      have := ih n
      omega

theorem take_sum_mono (l : List Nat) (i j : Nat) (h : i ≤ j) :
    (l.take i).sum ≤ (l.take j).sum := by
  have heq : l.take i = (l.take j).take i := by
    rw [List.take_take, min_eq_left h]
  rw [heq]
  exact take_sum_le _ _

theorem path_cancel (bp f1 f2 : String)
    (h : bp ++ ("/") ++ f1 = bp ++ ("/") ++ f2) : f1 = f2 := by
  have hd := congrArg String.data h
  simp only [String.data_append, List.append_assoc] at hd
  exact String.ext (List.append_cancel_left (List.append_cancel_left hd))

theorem manifest_entry_unique (manifest : List (String × ChunkEntry))
    (hnd : (manifest.map Prod.fst).Nodup) (f : String) (e1 e2 : ChunkEntry)
    (h1 : (f, e1) ∈ manifest) (h2 : (f, e2) ∈ manifest) : e1 = e2 := by
  have ha := alookup_of_mem_nodup manifest (f, e1) hnd h1
  have hb := alookup_of_mem_nodup manifest (f, e2) hnd h2
  rw [ha] at hb
  injection hb

/-- C6: in the planner's output, the drop for chunk `i` of a file starts at
the sum of the preceding chunk lengths and has length `lengths[i]`; hence
any two distinct drops targeting the same path occupy disjoint byte
ranges. -/
theorem generate_buckets_disjoint (g bp : String)
    (manifest : List (String × ChunkEntry))
    (hnd : (manifest.map Prod.fst).Nodup) :
    (∀ b ∈ generate_buckets g bp manifest, ∀ x ∈ b.drops,
      ∃ entry, (x.filename, entry) ∈ manifest
        ∧ x.index < entry.lengths.length
        ∧ x.start = (entry.lengths.take x.index).sum
        ∧ x.length = entry.lengths.getD x.index 0)
    ∧ (∀ b1 ∈ generate_buckets g bp manifest,
        ∀ b2 ∈ generate_buckets g bp manifest,
        ∀ d1 ∈ b1.drops, ∀ d2 ∈ b2.drops, d1.path = d2.path → d1 ≠ d2 →
          d1.start + d1.length ≤ d2.start
          ∨ d2.start + d2.length ≤ d1.start) := by
  have hgood := generate_buckets_good g bp manifest
  constructor
  · intro b hb x hx
    obtain ⟨entry, hm, hi, hs, hl, _, _, _⟩ := hgood b hb x hx
    exact ⟨entry, hm, hi, hs, hl⟩
  · intro b1 hb1 b2 hb2 d1 hd1 d2 hd2 hpath hne
    obtain ⟨e1, hm1, hi1, hs1, hl1, hc1, hp1, hpa1⟩ := hgood b1 hb1 d1 hd1
    obtain ⟨e2, hm2, hi2, hs2, hl2, hc2, hp2, hpa2⟩ := hgood b2 hb2 d2 hd2
    have hf : d1.filename = d2.filename := by
      rw [hpa1, hpa2] at hpath
      exact path_cancel bp _ _ hpath
    have he : e1 = e2 := by
      apply manifest_entry_unique manifest hnd d1.filename e1 e2 hm1
      rw [hf]
      exact hm2
    subst he
    have hidx : d1.index ≠ d2.index := by
      intro hieq
      apply hne
      obtain ⟨f1, s1, l1, c1, p1, pa1, i1⟩ := d1
      obtain ⟨f2, s2, l2, c2, p2, pa2, i2⟩ := d2
      simp only at hf hs1 hs2 hl1 hl2 hc1 hc2 hp1 hp2 hpa1 hpa2 hieq
      subst_vars
      rfl
    rcases Nat.lt_or_ge d1.index d2.index with hlt | hge
    · left
      rw [hs1, hl1, hs2]
      have hmono : (e1.lengths.take (d1.index + 1)).sum ≤
          (e1.lengths.take d2.index).sum :=
        take_sum_mono _ _ _ (by omega)
      have htake1 : (e1.lengths.take (d1.index + 1)).sum =
          (e1.lengths.take d1.index).sum + e1.lengths.getD d1.index 0 := by
        rw [List.take_succ, List.sum_append, List.getElem?_eq_getElem hi1,
          List.getD_eq_getElem _ _ hi1]
        simp
      omega
    · have hgt : d2.index < d1.index := by omega
      right
      rw [hs2, hl2, hs1]
      have hmono : (e1.lengths.take (d2.index + 1)).sum ≤
          (e1.lengths.take d1.index).sum :=
        take_sum_mono _ _ _ (by omega)
      have htake2 : (e1.lengths.take (d2.index + 1)).sum =
          (e1.lengths.take d2.index).sum + e1.lengths.getD d2.index 0 := by
        rw [List.take_succ, List.sum_append, List.getElem?_eq_getElem hi2,
          List.getD_eq_getElem _ _ hi2]
        simp
      omega

/-- Witness for C6: on `c5manifest` the two drops of `a.bin` (chunks 0 and 1)
target the same path with disjoint byte ranges. -/
theorem generate_buckets_disjoint_witness :
    c5bigDrop.start + c5bigDrop.length ≤ c5smallDrop.start
    ∨ c5smallDrop.start + c5smallDrop.length ≤ c5bigDrop.start :=
  (generate_buckets_disjoint ("g") ("base") c5manifest (by decide)).2
    c5bigBucket (by decide) c5smallBucket (by decide)
    c5bigDrop (by decide) c5smallDrop (by decide) (by decide) (by decide)

end DropApp
